import Mathlib

/-!
Shallow embedding of the `vendorize` tool (src/main.go).

The program crawls the import graph of a root Go package, copies every
external, non-blacklisted package under a destination prefix inside
GOPATH, and optionally rewrites import literals in the copied files.

Modelling decisions, in order of appearance in the source:

* A `Pkg` is the slice of `go/build.Package` that the program reads:
  the import path, directory, GOROOT flag, the three import lists, and
  the four source-file lists.  `buildPackage` consults an immutable package
  universe (`Cfg.env`, an association list keyed by import path); its
  memoisation cache is semantically transparent because the universe is
  fixed for a run, so the cache is not modelled separately.
* The filesystem is an explicit value: a set of directories, an
  association list of files, and a set of unreadable paths (paths on
  which `os.Open` fails).  Paths are lists of components;
  `filepath.Join` is list append, and the string paths that the program
  builds with `+ "/" +` are split on `/` when they reach the
  filesystem.
* Go source content is modelled through the parser/printer collaborator
  contract of the specification: a parseable file is its list of import
  literals plus an opaque fingerprint of all remaining bytes
  (`FileContent.goSrc`), and an unparseable file is `FileContent.raw`.
* Goroutines: every `go vendorize(...)` statement enqueues a pending
  task; the coordinator loop of `main` is modelled as a scheduler that
  repeatedly picks one pending task (the schedule, a list of numbers,
  chooses which), runs it atomically, and then records its result in
  `visited` — exactly the single-aggregation-point semantics that the
  specification ascribes to the scheduler.  Theorems quantify over all
  schedules.  Interleavings that split a task body are outside this
  embedding.
* Observable filesystem side effects are additionally logged as events
  (`Ev`), so frame properties ("no write happened") are statable even
  when a write re-creates identical content.
-/

/-- Association-list lookup (model of Go map read). -/
def lookupA {α β : Type} [DecidableEq α] : List (α × β) → α → Option β
  | [], _ => none
  | (k2, v) :: rest, k => if k2 = k then some v else lookupA rest k

/-- Association-list update (model of Go map write): replaces the
binding if the key is present, otherwise appends it. -/
def setA {α β : Type} [DecidableEq α] : List (α × β) → α → β → List (α × β)
  | [], k, v => [(k, v)]
  | (k2, v2) :: rest, k, v =>
    if k2 = k then (k, v) :: rest else (k2, v2) :: setA rest k v

/-- The slice of `go/build.Package` that vendorize reads. -/
structure Pkg where
  importPath : String
  dir : List String
  goroot : Bool
  imports : List String
  testImports : List String
  xtestImports : List String
  goFiles : List String
  cgoFiles : List String
  testGoFiles : List String
  xtestGoFiles : List String
deriving DecidableEq, Repr

/-- File content through the parser/printer collaborator contract:
`goSrc` is a parseable Go file, given by its import literals plus an
opaque fingerprint of everything else (the printer preserves untouched
nodes); `raw` is a file on which the parser fails. -/
inductive FileContent where
  | goSrc (imports : List String) (rest : Nat)
  | raw (data : Nat)
deriving DecidableEq, Repr

/-- A file on disk: content plus permission bits. -/
structure FSFile where
  content : FileContent
  perm : Nat
deriving DecidableEq, Repr

/-- The filesystem: existing directories, files keyed by path, and
paths on which `os.Open` fails. -/
structure FS where
  dirs : List (List String)
  files : List (List String × FSFile)
  unreadable : List (List String)
deriving DecidableEq, Repr

/-- Observable side effects of a run.  `traversed` marks a task that
passed the `visited` check and began full processing; `materialized`
marks a successful copy step recording a rewrite entry; the other three
are filesystem writes. -/
inductive Ev where
  | traversed (p : String)
  | materialized (p : String)
  | mkdir (p : List String)
  | copied (p : List String)
  | renamed (p : List String)
deriving DecidableEq, Repr

/-- Whether an event is a filesystem write. -/
def Ev.isWrite : Ev → Bool
  | .traversed _ => false
  | .materialized _ => false
  | .mkdir _ => true
  | .copied _ => true
  | .renamed _ => true

/-- Run configuration: the package universe, the blacklist (after
`main` appended the root and the destination to it), the destination
prefix, the GOPATH components, and the three mode flags. -/
structure Cfg where
  env : List (String × Pkg)
  blacklist : List String
  dest : String
  gopath : List String
  force : Bool
  dry : Bool
  updateImports : Bool
deriving DecidableEq, Repr

/-- `main` appends the root package name and the destination to the
user-supplied blacklist (main.go lines 85-86). -/
def mkCfg (env : List (String × Pkg)) (gopath : List String)
    (userBlacklist : List String) (root dest : String)
    (force upd dry : Bool) : Cfg :=
  { env := env, blacklist := userBlacklist ++ [root, dest], dest := dest,
    gopath := gopath, force := force, dry := dry, updateImports := upd }

/-- Read a file (model of opening a path for reading). -/
def fsRead (fs : FS) (p : List String) : Option FSFile :=
  lookupA fs.files p

/-- Write a file, creating or replacing it. -/
def fsWrite (fs : FS) (p : List String) (f : FSFile) : FS :=
  { fs with files := setA fs.files p f }

/-- Model of `exists` (main.go lines 218-224): `os.Stat` succeeds when
a directory or a file is present at the path. -/
def fsExists (fs : FS) (p : List String) : Bool :=
  decide (p ∈ fs.dirs) || (lookupA fs.files p).isSome

/-- All nonempty prefixes of a path, shortest first. -/
def prefixesOf (p : List String) : List (List String) :=
  (List.range p.length).map (fun i => p.take (i + 1))

/-- Model of `os.MkdirAll`: fails when a file blocks the path or one of
its ancestors, otherwise records the directory and all its ancestors. -/
def mkdirAll (fs : FS) (p : List String) : Except String FS :=
  if (prefixesOf p).any (fun q => (lookupA fs.files q).isSome) then
    .error "mkdir failed"
  else
    .ok { fs with dirs := prefixesOf p ++ fs.dirs }

/-- Model of `strings.HasPrefix` from the Go standard library, by
structural recursion over the characters (so that proofs can evaluate
it). -/
def hasPrefixS (b s : String) : Bool := b.data.isPrefixOf s.data

/-- Helper for `splitPath`: split a character list on `/`. -/
def splitSlash : List Char → List Char → List (List Char)
  | [], acc => [acc.reverse]
  | c :: rest, acc =>
    if c = '/' then acc.reverse :: splitSlash rest []
    else splitSlash rest (c :: acc)

/-- Split a slash-separated import identifier into path components
(what `filepath.Join` does to a slash-joined argument). -/
def splitPath (s : String) : List String :=
  (splitSlash s.data []).map (fun l => String.mk l)

/-- Model of `getAllImports` (main.go lines 307-319): the union of the
normal, test, and external-test import lists.  The Go code collects the
union in a map and iterates it in unspecified order; the model fixes a
deterministic order, which no proved property depends on. -/
def getAllImports (pkg : Pkg) : List String :=
  (pkg.imports ++ pkg.testImports ++ pkg.xtestImports).dedup

/-- Model of `ignored` (main.go lines 227-238): a path is ignored when
it is already a key of the rewrites map or matches a blacklisted prefix
by a plain string-prefix test. -/
def ignoredB (rw : List (String × String)) (bl : List String)
    (path : String) : Bool :=
  (lookupA rw path).isSome || bl.any (fun b => hasPrefixS b path)

/-- The import-resolution loop of `vendorize` (main.go lines 142-156):
skip the C pseudo-import, resolve every remaining import, abort on the
first resolution failure, and keep only non-GOROOT packages. -/
def resolveImports (env : List (String × Pkg)) :
    List String → Except String (List Pkg)
  | [] => .ok []
  | imp :: rest =>
    if imp = "C" then resolveImports env rest
    else
      match lookupA env imp with
      | none => .error ("couldnt import " ++ imp)
      | some pkg =>
        match resolveImports env rest with
        | .error e => .error e
        | .ok pkgs => .ok (if pkg.goroot then pkgs else pkg :: pkgs)

/-- The non-GOROOT packages among a list of resolvable imports (the
value `resolveImports` returns when it succeeds). -/
def extPkgs (env : List (String × Pkg)) : List String → List Pkg
  | [] => []
  | imp :: rest =>
    if imp = "C" then extPkgs env rest
    else
      match lookupA env imp with
      | none => extPkgs env rest
      | some pkg => if pkg.goroot then extPkgs env rest else pkg :: extPkgs env rest

/-- The import paths a fully successful traversal of `p` recurses
toward, before the visited filter: external resolved imports other than
`p` itself (the self-import guard of main.go lines 160-163). -/
def rawChildren (env : List (String × Pkg)) (p : String) : List String :=
  match lookupA env p with
  | none => []
  | some pkg =>
    ((extPkgs env (getAllImports pkg)).filter
      (fun ip => decide (ip.importPath ≠ p))).map (fun ip => ip.importPath)

/-- A package on which a traversal task completes in full: it resolves,
is external, and all its imports (except C) resolve. -/
def resolvesOkB (env : List (String × Pkg)) (p : String) : Bool :=
  match lookupA env p with
  | none => false
  | some pkg =>
    !pkg.goroot &&
      (getAllImports pkg).all (fun imp => imp = "C" || (lookupA env imp).isSome)

/-- One expansion step of the reachable set: a set together with the
children of all its members. -/
def reachIter (env : List (String × Pkg)) (s : List String) : List String :=
  (s ++ s.flatMap (rawChildren env)).dedup

/-- The import identifiers reachable from the root in at most `n`
steps. -/
def reachN (env : List (String × Pkg)) (root : String) : Nat → List String
  | 0 => [root]
  | n + 1 => reachIter env (reachN env root n)

/-- Import substitution on one literal: the mapped value when the
literal is a key of the rewrite map, the literal itself otherwise. -/
def substImport (m : List (String × String)) (q : String) : String :=
  match lookupA m q with
  | some v => v
  | none => q

/-- Model of the parse-and-replace core of `rewriteFileImports`
(main.go lines 359-377): parse the content, replace the path of each
matched import (one whose literal is a key of the map), keep everything
else.  The value `none` is a parse failure. -/
def rewriteContent (m : List (String × String)) :
    FileContent → Option FileContent
  | .goSrc imps rest => some (.goSrc (imps.map (substImport m)) rest)
  | .raw _ => none

/-- Model of `rewriteFile` (main.go lines 341-356): in dry mode return
immediately with no effect; otherwise parse the source file, write the
rewritten form to a fresh temporary file, and rename the temporary file
over the destination (`ioutil.TempFile` creates mode 0600 files, which
the rename preserves, hence permission 384).  On a parse failure the
destination is untouched. -/
def rewriteFile (dry : Bool) (fs : FS) (dest src : List String)
    (m : List (String × String)) : Except String (FS × List Ev) :=
  if dry then .ok (fs, [])
  else if src ∈ fs.unreadable then .error "parse: cannot open"
  else
    match fsRead fs src with
    | none => .error "parse: no such file"
    | some f =>
      match rewriteContent m f.content with
      | none => .error "parse error"
      | some c2 => .ok (fsWrite fs dest ⟨c2, 384⟩, [Ev.renamed dest])

/-- Result of the per-unit rewrite pass. -/
structure ROut where
  fs : FS
  err : Option String
  evs : List Ev
deriving DecidableEq, Repr

/-- The rewrite loop of `vendorize` (main.go lines 195-210): for each
source file, when the rewrites map is nonempty, rewrite the copy of the
file at the destination directory by reparsing the original; the first
error aborts the remaining files of this unit. -/
def rewriteFiles (dry : Bool) (m : List (String × String))
    (pkgDir srcDir : List String) : List String → FS → ROut
  | [], fs => ⟨fs, none, []⟩
  | n :: rest, fs =>
    if m.length > 0 then
      match rewriteFile dry fs (pkgDir ++ [n]) (srcDir ++ [n]) m with
      | .error e => ⟨fs, some e, []⟩
      | .ok (fs2, evs) =>
        let r := rewriteFiles dry m pkgDir srcDir rest fs2
        ⟨r.fs, r.err, evs ++ r.evs⟩
    else rewriteFiles dry m pkgDir srcDir rest fs

/-- The four source-file lists the rewrite loop iterates, in source
order. -/
def allSrcFiles (pkg : Pkg) : List String :=
  pkg.goFiles ++ pkg.cgoFiles ++ pkg.testGoFiles ++ pkg.xtestGoFiles

/-- Model of `copyFile` (main.go lines 241-257): fails when the source
cannot be opened; otherwise truncates an existing destination file
(keeping its permission bits) or creates it with the given bits. -/
def copyFileF (fs : FS) (dest src : List String) (f : FSFile) :
    Except String FS :=
  if src ∈ fs.unreadable then .error "open failed"
  else
    match lookupA fs.files dest with
    | some old => .ok (fsWrite fs dest ⟨f.content, old.perm⟩)
    | none => .ok (fsWrite fs dest ⟨f.content, f.perm⟩)

/-- The walk body of `copyDir` (main.go lines 269-303) applied to the
files directly inside the source directory (the walk callback answers
`SkipDir` on every subdirectory, so deeper entries are never visited).
In dry mode each file is only logged.  Otherwise a file is copied
unless it already exists and force is off — and the return value of
`copyFile` is discarded (main.go line 299), so a failed copy neither
stops the walk nor surfaces as an error. -/
def walkCopy (force dry : Bool) (dest : List String) :
    List (List String × FSFile) → FS → FS × List Ev
  | [], fs => (fs, [])
  | (q, f) :: rest, fs =>
    if dry then walkCopy force dry dest rest fs
    else
      let destFile := dest ++ [q.getLastD ""]
      if !fsExists fs destFile || force then
        match copyFileF fs destFile q f with
        | .ok fs2 =>
          let r := walkCopy force dry dest rest fs2
          (r.1, Ev.copied destFile :: r.2)
        | .error _ => walkCopy force dry dest rest fs
      else walkCopy force dry dest rest fs

/-- Model of `copyDir` (main.go lines 260-304): create the destination
directory (skipped in dry mode), then walk the source directory,
copying only the files directly inside it.  The walk fails when the
source directory does not exist.  The walk iterates the snapshot of the
directory listing; its lexical order is irrelevant to every property
proved below. -/
def copyDir (dry force : Bool) (fs : FS) (dest src : List String) :
    Except String (FS × List Ev) :=
  match (if dry then Except.ok fs else mkdirAll fs dest) with
  | .error _ => .error "Couldnt make destination directory"
  | .ok fs1 =>
    if src ∈ fs1.dirs then
      let srcFiles := fs1.files.filter (fun qf => decide (qf.1.dropLast = src))
      let r := walkCopy force dry dest srcFiles fs1
      .ok (r.1, (if dry then [] else [Ev.mkdir dest]) ++ r.2)
    else .error "walk: source missing"

/-- Result of one traversal task. -/
structure StepOut where
  spawns : List String
  fs : FS
  rewrites : List (String × String)
  err : Option String
  events : List Ev
deriving DecidableEq, Repr

/-- The destination import identifier of a copied unit: the string
concatenation `dest + "/" + path` of main.go line 174. -/
def newPathOf (cfg : Cfg) (path : String) : String :=
  cfg.dest ++ "/" ++ path

/-- The destination directory of a copied unit:
`filepath.Join(gopath, "src", newPath)` of main.go line 175. -/
def pkgDirOf (cfg : Cfg) (path : String) : List String :=
  cfg.gopath ++ ("src" :: splitPath (newPathOf cfg path))

/-- The copy-then-rewrite tail of `vendorize` (main.go lines 170-211),
returning the new filesystem, the new rewrites map, the task error, and
the emitted events.  A unit that is not ignored is copied to
`gopath/src/dest/path` unless the destination already exists and force
is off; a successful copy records the rewrite entry; the rewrite pass
then runs over the destination directory (for an ignored unit, over the
original directory). -/
def materializePhase (cfg : Cfg) (fs : FS) (rw : List (String × String))
    (rootPkg : Pkg) (path : String) :
    FS × List (String × String) × Option String × List Ev :=
  if ignoredB rw cfg.blacklist path then
    if cfg.updateImports then
      let r := rewriteFiles cfg.dry rw rootPkg.dir rootPkg.dir (allSrcFiles rootPkg) fs
      (r.fs, rw, r.err, r.evs)
    else (fs, rw, none, [])
  else
    if cfg.force || !fsExists fs (pkgDirOf cfg path) then
      match copyDir cfg.dry cfg.force fs (pkgDirOf cfg path) rootPkg.dir with
      | .error e => (fs, rw, some ("Couldnt copy " ++ path ++ ": " ++ e), [])
      | .ok (fs2, evs) =>
        let rw2 := rw ++ [(path, newPathOf cfg path)]
        if cfg.updateImports then
          let r := rewriteFiles cfg.dry rw2 (pkgDirOf cfg path) rootPkg.dir
            (allSrcFiles rootPkg) fs2
          (r.fs, rw2, r.err, evs ++ [Ev.materialized path] ++ r.evs)
        else (fs2, rw2, none, evs ++ [Ev.materialized path])
    else (fs, rw, some ("Ignored preexisting " ++ path), [])

/-- One traversal task, the body of `vendorize` (main.go lines
114-215): skip an already-visited path; resolve the unit; reject GOROOT
units; resolve all imports, aborting the task on the first failure;
compute the paths to recurse into (spawned as new tasks); then run the
copy and rewrite phases. -/
def vendorizeStep (cfg : Cfg) (fs : FS) (rw : List (String × String))
    (visited : List String) (path : String) : StepOut :=
  if path ∈ visited then
    { spawns := [], fs := fs, rewrites := rw,
      err := some ("Path already visited... skipping " ++ path), events := [] }
  else
    match lookupA cfg.env path with
    | none =>
      { spawns := [], fs := fs, rewrites := rw,
        err := some ("Couldnt import " ++ path), events := [Ev.traversed path] }
    | some rootPkg =>
      if rootPkg.goroot then
        { spawns := [], fs := fs, rewrites := rw,
          err := some "Cant vendorize packages from GOROOT",
          events := [Ev.traversed path] }
      else
        match resolveImports cfg.env (getAllImports rootPkg) with
        | .error e =>
          { spawns := [], fs := fs, rewrites := rw, err := some e,
            events := [Ev.traversed path] }
        | .ok pkgs =>
          let spawns := (pkgs.filter (fun pk =>
            decide (pk.importPath ≠ path ∧ pk.importPath ∉ visited))).map
              (fun pk => pk.importPath)
          let m := materializePhase cfg fs rw rootPkg path
          { spawns := spawns, fs := m.1, rewrites := m.2.1, err := m.2.2.1,
            events := Ev.traversed path :: m.2.2.2 }

/-- Scheduler state: the shared maps of `main`, the pending task queue
(the goroutines in flight), and the logs. -/
structure St where
  fs : FS
  rewrites : List (String × String)
  visited : List String
  pending : List String
  events : List Ev
  errors : List String
deriving DecidableEq, Repr

/-- The pending task that scheduling choice `k` selects. -/
def pickedPath (k : Nat) (st : St) : String :=
  st.pending.getD (k % st.pending.length) ""

/-- The pending queue with the selected task removed. -/
def restPending (k : Nat) (st : St) : List String :=
  st.pending.take (k % st.pending.length) ++
    st.pending.drop (k % st.pending.length + 1)

/-- One scheduler round: pick a pending task (the scheduling choice `k`
selects which, modelling the nondeterministic goroutine order), run it
atomically, and record its result — the coordinator loop of `main`
(lines 95-108) marks the task path visited whatever the outcome. -/
def runStep (cfg : Cfg) (k : Nat) (st : St) : St :=
  if st.pending.isEmpty then st
  else
    let p := pickedPath k st
    let out := vendorizeStep cfg st.fs st.rewrites st.visited p
    { fs := out.fs
      rewrites := out.rewrites
      visited := if p ∈ st.visited then st.visited else p :: st.visited
      pending := restPending k st ++ out.spawns
      events := st.events ++ out.events
      errors := st.errors ++ (match out.err with | some e => [e] | none => []) }

/-- A whole run under a given schedule. -/
def run (cfg : Cfg) : List Nat → St → St
  | [], st => st
  | k :: ks, st => run cfg ks (runStep cfg k st)

/-- The initial state: `main` seeds one task for the root package. -/
def initSt (fs0 : FS) (root : String) : St :=
  { fs := fs0, rewrites := [], visited := [], pending := [root],
    events := [], errors := [] }

/-! ### Basic lemmas about the association-list and filesystem primitives -/

theorem lookupA_setA_self {α β : Type} [DecidableEq α]
    (l : List (α × β)) (k : α) (v : β) : lookupA (setA l k v) k = some v := by
  induction l with
  | nil => simp [setA, lookupA]
  | cons h t ih =>
    obtain ⟨k2, v2⟩ := h
    by_cases hk : k2 = k
    · simp [setA, hk, lookupA]
    · simp [setA, hk, lookupA, ih]

theorem lookupA_setA_ne {α β : Type} [DecidableEq α]
    (l : List (α × β)) (k k2 : α) (v : β) (h : k2 ≠ k) :
    lookupA (setA l k v) k2 = lookupA l k2 := by
  have hk2 : ¬k = k2 := fun hh => h hh.symm
  induction l with
  | nil => simp [setA, lookupA, hk2]
  | cons hd t ih =>
    obtain ⟨k3, v3⟩ := hd
    by_cases hk : k3 = k
    · subst hk
      simp [setA, lookupA, hk2]
    · simp only [setA, if_neg hk, lookupA]
      by_cases hk3 : k3 = k2 <;> simp [hk3, ih]

theorem lookupA_eq_none {α β : Type} [DecidableEq α]
    (l : List (α × β)) (k : α) (h : ∀ x ∈ l, x.1 ≠ k) : lookupA l k = none := by
  induction l with
  | nil => rfl
  | cons hd t ih =>
    obtain ⟨k2, v2⟩ := hd
    have hk : k2 ≠ k := h (k2, v2) (by simp)
    simp only [lookupA, if_neg hk]
    exact ih (fun x hx => h x (by simp [hx]))

theorem mem_of_lookupA {α β : Type} [DecidableEq α]
    (l : List (α × β)) (k : α) (v : β) (h : lookupA l k = some v) : (k, v) ∈ l := by
  induction l with
  | nil => simp [lookupA] at h
  | cons hd t ih =>
    obtain ⟨k2, v2⟩ := hd
    by_cases hk : k2 = k
    · subst hk
      simp [lookupA] at h
      simp [h]
    · simp only [lookupA, if_neg hk] at h
      simp [ih h]

theorem fsWrite_unreadable (fs : FS) (p : List String) (f : FSFile) :
    (fsWrite fs p f).unreadable = fs.unreadable := rfl

theorem fsWrite_dirs (fs : FS) (p : List String) (f : FSFile) :
    (fsWrite fs p f).dirs = fs.dirs := rfl

theorem fsRead_fsWrite_self (fs : FS) (p : List String) (f : FSFile) :
    fsRead (fsWrite fs p f) p = some f := lookupA_setA_self _ _ _

theorem fsRead_fsWrite_ne (fs : FS) (p q : List String) (f : FSFile)
    (h : q ≠ p) : fsRead (fsWrite fs p f) q = fsRead fs q :=
  lookupA_setA_ne _ _ _ _ h

theorem fsExists_fsWrite_ne (fs : FS) (p q : List String) (f : FSFile)
    (h : q ≠ p) : fsExists (fsWrite fs p f) q = fsExists fs q := by
  simp only [fsExists, fsWrite]
  rw [lookupA_setA_ne _ _ _ _ h]

/-- A pending queue with an element at position `i` decomposes around it. -/
theorem pending_decomp (l : List String) (i : Nat) (h : i < l.length) :
    l = l.take i ++ l.getD i "" :: l.drop (i + 1) := by
  rw [List.getD_eq_getElem l "" h]
  rw [List.getElem_cons_drop]
  exact (List.take_append_drop i l).symm

/-! ### Characterisation of the per-task operations -/

/-- Whether an event is a `traversed` marker. -/
def Ev.isTrav : Ev → Bool
  | .traversed _ => true
  | _ => false

theorem walkCopy_dry (force : Bool) (dest : List String) :
    ∀ (l : List (List String × FSFile)) (fs : FS),
    walkCopy force true dest l fs = (fs, []) := by
  intro l
  induction l with
  | nil => intro fs; rfl
  | cons hd t ih =>
    intro fs
    obtain ⟨q, f⟩ := hd
    simp [walkCopy, ih]

theorem copyDir_dry (force : Bool) (fs : FS) (dest src : List String) :
    copyDir true force fs dest src =
      if src ∈ fs.dirs then .ok (fs, []) else .error "walk: source missing" := by
  by_cases h : src ∈ fs.dirs <;>
    simp [copyDir, h, walkCopy_dry]

theorem rewriteFile_dry (fs : FS) (dest src : List String)
    (m : List (String × String)) : rewriteFile true fs dest src m = .ok (fs, []) := rfl

theorem rewriteFiles_dry (m : List (String × String)) (pkgDir srcDir : List String) :
    ∀ (names : List String) (fs : FS),
    rewriteFiles true m pkgDir srcDir names fs = ⟨fs, none, []⟩ := by
  intro names
  induction names with
  | nil => intro fs; rfl
  | cons n t ih =>
    intro fs
    by_cases h : m.length > 0 <;> simp [rewriteFiles, h, rewriteFile_dry, ih]

theorem rewriteFile_events (dry : Bool) (fs : FS) (dest src : List String)
    (m : List (String × String)) (fs2 : FS) (evs : List Ev)
    (h : rewriteFile dry fs dest src m = .ok (fs2, evs)) :
    evs = [] ∨ evs = [Ev.renamed dest] := by
  by_cases hd : dry
  · subst hd
    simp [rewriteFile_dry] at h
    simp [h.2]
  · simp only [Bool.not_eq_true] at hd
    subst hd
    simp only [rewriteFile, if_neg (by simp : ¬False), Bool.false_eq_true] at h
    split at h
    · exact absurd h (by simp)
    · split at h
      · exact absurd h (by simp)
      · split at h
        · exact absurd h (by simp)
        · simp at h
          simp [h.2]

theorem rewriteFiles_events (dry : Bool) (m : List (String × String))
    (pkgDir srcDir : List String) :
    ∀ (names : List String) (fs : FS), ∀ e ∈ (rewriteFiles dry m pkgDir srcDir names fs).evs,
    ∃ q, e = Ev.renamed q := by
  intro names
  induction names with
  | nil => intro fs e he; simp [rewriteFiles] at he
  | cons n t ih =>
    intro fs e he
    by_cases h : m.length > 0
    · simp only [rewriteFiles, if_pos h] at he
      cases hrf : rewriteFile dry fs (pkgDir ++ [n]) (srcDir ++ [n]) m with
      | error err => rw [hrf] at he; simp at he
      | ok pr =>
        obtain ⟨fs2, evs⟩ := pr
        rw [hrf] at he
        simp only [List.mem_append] at he
        rcases he with he | he
        · rcases rewriteFile_events dry fs _ _ m fs2 evs hrf with h0 | h0 <;>
            rw [h0] at he <;> simp at he
          exact ⟨_, he⟩
        · exact ih fs2 e he
    · simp only [rewriteFiles, if_neg h] at he
      exact ih fs e he

theorem walkCopy_events (force dry : Bool) (dest : List String) :
    ∀ (l : List (List String × FSFile)) (fs : FS), ∀ e ∈ (walkCopy force dry dest l fs).2,
    ∃ q, e = Ev.copied q := by
  intro l
  induction l with
  | nil => intro fs e he; simp [walkCopy] at he
  | cons hd t ih =>
    intro fs e he
    obtain ⟨q, f⟩ := hd
    by_cases hdry : dry
    · subst hdry
      simp only [walkCopy, if_pos rfl] at he
      exact ih fs e he
    · simp only [Bool.not_eq_true] at hdry
      subst hdry
      simp only [walkCopy, Bool.false_eq_true, if_neg (by simp : ¬False)] at he
      split at he
      · split at he
        · simp only [List.mem_cons] at he
          rcases he with he | he
          · exact ⟨_, he⟩
          · exact ih _ e he
        · exact ih fs e he
      · exact ih fs e he

theorem resolveImports_ok_eq (env : List (String × Pkg)) :
    ∀ (l : List String) (pkgs : List Pkg),
    resolveImports env l = .ok pkgs → pkgs = extPkgs env l := by
  intro l
  induction l with
  | nil => intro pkgs h; simp [resolveImports] at h; simp [extPkgs, h]
  | cons imp rest ih =>
    intro pkgs h
    by_cases hc : imp = "C"
    · simp only [resolveImports, if_pos hc] at h
      simp only [extPkgs, if_pos hc]
      exact ih pkgs h
    · simp only [resolveImports, if_neg hc] at h
      simp only [extPkgs, if_neg hc]
      cases hlk : lookupA env imp with
      | none => rw [hlk] at h; simp at h
      | some pkg =>
        rw [hlk] at h
        cases hres : resolveImports env rest with
        | error e => rw [hres] at h; simp at h
        | ok pkgs2 =>
          rw [hres] at h
          simp only [Except.ok.injEq] at h
          rw [← h, ih pkgs2 hres]

theorem resolveImports_of_all (env : List (String × Pkg)) :
    ∀ (l : List String),
    (∀ imp ∈ l, imp = "C" ∨ (lookupA env imp).isSome) →
    resolveImports env l = .ok (extPkgs env l) := by
  intro l
  induction l with
  | nil => intro _; rfl
  | cons imp rest ih =>
    intro h
    have hrest := ih (fun x hx => h x (by simp [hx]))
    by_cases hc : imp = "C"
    · simp [resolveImports, extPkgs, hc, hrest]
    · rcases h imp (by simp) with hce | hs
      · exact absurd hce hc
      · cases hlk : lookupA env imp with
        | none => rw [hlk] at hs; simp at hs
        | some pkg =>
          simp [resolveImports, extPkgs, hc, hlk, hrest]

/-- The spawn decision of one task, as a function of the package
universe, the visited set, and the task path only: it does not read the
filesystem, the rewrites map, the blacklist, or the mode flags. -/
def stepSpawnsF (env : List (String × Pkg)) (visited : List String)
    (path : String) : List String :=
  if path ∈ visited then []
  else
    match lookupA env path with
    | none => []
    | some pkg =>
      if pkg.goroot then []
      else
        match resolveImports env (getAllImports pkg) with
        | .error _ => []
        | .ok pkgs =>
          (pkgs.filter (fun pk =>
            decide (pk.importPath ≠ path ∧ pk.importPath ∉ visited))).map
              (fun pk => pk.importPath)

theorem vendorizeStep_spawns (cfg : Cfg) (fs : FS) (rw : List (String × String))
    (vis : List String) (p : String) :
    (vendorizeStep cfg fs rw vis p).spawns = stepSpawnsF cfg.env vis p := by
  by_cases h : p ∈ vis
  · simp [vendorizeStep, stepSpawnsF, h]
  · simp only [vendorizeStep, stepSpawnsF, if_neg h]
    cases hlk : lookupA cfg.env p with
    | none => simp
    | some pkg =>
      simp only []
      cases hg : pkg.goroot with
      | true => simp
      | false =>
        simp only [Bool.false_eq_true, if_neg (by simp : ¬False)]
        cases hres : resolveImports cfg.env (getAllImports pkg) with
        | error e => simp
        | ok pkgs => simp

theorem vendorizeStep_visited (cfg : Cfg) (fs : FS) (rw : List (String × String))
    (vis : List String) (p : String) (h : p ∈ vis) :
    vendorizeStep cfg fs rw vis p =
      { spawns := [], fs := fs, rewrites := rw,
        err := some ("Path already visited... skipping " ++ p), events := [] } := by
  simp [vendorizeStep, h]

theorem copyDir_events_noTrav (dry force : Bool) (fs : FS) (dest src : List String)
    (fs2 : FS) (evs : List Ev) (h : copyDir dry force fs dest src = .ok (fs2, evs)) :
    ∀ e ∈ evs, e.isTrav = false := by
  intro e he
  simp only [copyDir] at h
  split at h
  · simp at h
  · split at h
    · simp only [Except.ok.injEq, Prod.mk.injEq] at h
      rw [← h.2] at he
      simp only [List.mem_append] at he
      rcases he with he | he
      · split at he
        · simp at he
        · simp only [List.mem_singleton] at he
          simp [he, Ev.isTrav]
      · obtain ⟨q, hq⟩ := walkCopy_events force dry dest _ _ e he
        simp [hq, Ev.isTrav]
    · simp at h


theorem materializePhase_eq_ig_upd (cfg : Cfg) (fs : FS)
    (rw : List (String × String)) (pkg : Pkg) (p : String)
    (hig : ignoredB rw cfg.blacklist p = true) (hupd : cfg.updateImports = true) :
    materializePhase cfg fs rw pkg p =
      ((rewriteFiles cfg.dry rw pkg.dir pkg.dir (allSrcFiles pkg) fs).fs, rw,
        (rewriteFiles cfg.dry rw pkg.dir pkg.dir (allSrcFiles pkg) fs).err,
        (rewriteFiles cfg.dry rw pkg.dir pkg.dir (allSrcFiles pkg) fs).evs) := by
  simp [materializePhase, hig, hupd]

theorem materializePhase_eq_ig_noupd (cfg : Cfg) (fs : FS)
    (rw : List (String × String)) (pkg : Pkg) (p : String)
    (hig : ignoredB rw cfg.blacklist p = true) (hupd : cfg.updateImports = false) :
    materializePhase cfg fs rw pkg p = (fs, rw, none, []) := by
  simp [materializePhase, hig, hupd]

theorem materializePhase_eq_copyerr (cfg : Cfg) (fs : FS)
    (rw : List (String × String)) (pkg : Pkg) (p : String) (e : String)
    (hig : ignoredB rw cfg.blacklist p = false)
    (hcond : (cfg.force || !fsExists fs (pkgDirOf cfg p)) = true)
    (hcd : copyDir cfg.dry cfg.force fs (pkgDirOf cfg p) pkg.dir = .error e) :
    materializePhase cfg fs rw pkg p =
      (fs, rw, some ("Couldnt copy " ++ p ++ ": " ++ e), []) := by
  simp [materializePhase, hig, hcond, hcd]

theorem materializePhase_eq_copyok_upd (cfg : Cfg) (fs : FS)
    (rw : List (String × String)) (pkg : Pkg) (p : String) (fs2 : FS) (evs : List Ev)
    (hig : ignoredB rw cfg.blacklist p = false)
    (hcond : (cfg.force || !fsExists fs (pkgDirOf cfg p)) = true)
    (hcd : copyDir cfg.dry cfg.force fs (pkgDirOf cfg p) pkg.dir = .ok (fs2, evs))
    (hupd : cfg.updateImports = true) :
    materializePhase cfg fs rw pkg p =
      ((rewriteFiles cfg.dry (rw ++ [(p, newPathOf cfg p)]) (pkgDirOf cfg p) pkg.dir
          (allSrcFiles pkg) fs2).fs,
        rw ++ [(p, newPathOf cfg p)],
        (rewriteFiles cfg.dry (rw ++ [(p, newPathOf cfg p)]) (pkgDirOf cfg p) pkg.dir
          (allSrcFiles pkg) fs2).err,
        evs ++ [Ev.materialized p] ++
          (rewriteFiles cfg.dry (rw ++ [(p, newPathOf cfg p)]) (pkgDirOf cfg p) pkg.dir
            (allSrcFiles pkg) fs2).evs) := by
  simp [materializePhase, hig, hcond, hcd, hupd]

theorem materializePhase_eq_copyok_noupd (cfg : Cfg) (fs : FS)
    (rw : List (String × String)) (pkg : Pkg) (p : String) (fs2 : FS) (evs : List Ev)
    (hig : ignoredB rw cfg.blacklist p = false)
    (hcond : (cfg.force || !fsExists fs (pkgDirOf cfg p)) = true)
    (hcd : copyDir cfg.dry cfg.force fs (pkgDirOf cfg p) pkg.dir = .ok (fs2, evs))
    (hupd : cfg.updateImports = false) :
    materializePhase cfg fs rw pkg p =
      (fs2, rw ++ [(p, newPathOf cfg p)], none, evs ++ [Ev.materialized p]) := by
  simp [materializePhase, hig, hcond, hcd, hupd]

theorem materializePhase_eq_preexisting (cfg : Cfg) (fs : FS)
    (rw : List (String × String)) (pkg : Pkg) (p : String)
    (hig : ignoredB rw cfg.blacklist p = false)
    (hcond : (cfg.force || !fsExists fs (pkgDirOf cfg p)) = false) :
    materializePhase cfg fs rw pkg p =
      (fs, rw, some ("Ignored preexisting " ++ p), []) := by
  simp [materializePhase, hig, hcond]

theorem materializePhase_rw_mem (cfg : Cfg) (fs : FS) (rw : List (String × String))
    (pkg : Pkg) (p : String) :
    ∀ x ∈ (materializePhase cfg fs rw pkg p).2.1, x ∈ rw ∨
      (x = (p, newPathOf cfg p) ∧ ignoredB rw cfg.blacklist p = false ∧
        Ev.materialized p ∈ (materializePhase cfg fs rw pkg p).2.2.2) := by
  intro x hx
  cases hig : ignoredB rw cfg.blacklist p with
  | true =>
    cases hupd : cfg.updateImports with
    | true =>
      rw [materializePhase_eq_ig_upd cfg fs rw pkg p hig hupd] at hx
      exact Or.inl hx
    | false =>
      rw [materializePhase_eq_ig_noupd cfg fs rw pkg p hig hupd] at hx
      exact Or.inl hx
  | false =>
    cases hcond : (cfg.force || !fsExists fs (pkgDirOf cfg p)) with
    | false =>
      rw [materializePhase_eq_preexisting cfg fs rw pkg p hig hcond] at hx
      exact Or.inl hx
    | true =>
      cases hcd : copyDir cfg.dry cfg.force fs (pkgDirOf cfg p) pkg.dir with
      | error e =>
        rw [materializePhase_eq_copyerr cfg fs rw pkg p e hig hcond hcd] at hx
        exact Or.inl hx
      | ok pr =>
        obtain ⟨fs2, evs⟩ := pr
        cases hupd : cfg.updateImports with
        | true =>
          rw [materializePhase_eq_copyok_upd cfg fs rw pkg p fs2 evs hig hcond hcd hupd] at hx ⊢
          simp only [List.mem_append, List.mem_singleton] at hx
          rcases hx with hx | hx
          · exact Or.inl hx
          · exact Or.inr ⟨hx, rfl, by simp⟩
        | false =>
          rw [materializePhase_eq_copyok_noupd cfg fs rw pkg p fs2 evs hig hcond hcd hupd] at hx ⊢
          simp only [List.mem_append, List.mem_singleton] at hx
          rcases hx with hx | hx
          · exact Or.inl hx
          · exact Or.inr ⟨hx, rfl, by simp⟩

theorem materializePhase_rw_mono (cfg : Cfg) (fs : FS) (rw : List (String × String))
    (pkg : Pkg) (p : String) :
    ∀ x ∈ rw, x ∈ (materializePhase cfg fs rw pkg p).2.1 := by
  intro x hx
  cases hig : ignoredB rw cfg.blacklist p with
  | true =>
    cases hupd : cfg.updateImports with
    | true => rw [materializePhase_eq_ig_upd cfg fs rw pkg p hig hupd]; exact hx
    | false => rw [materializePhase_eq_ig_noupd cfg fs rw pkg p hig hupd]; exact hx
  | false =>
    cases hcond : (cfg.force || !fsExists fs (pkgDirOf cfg p)) with
    | false => rw [materializePhase_eq_preexisting cfg fs rw pkg p hig hcond]; exact hx
    | true =>
      cases hcd : copyDir cfg.dry cfg.force fs (pkgDirOf cfg p) pkg.dir with
      | error e => rw [materializePhase_eq_copyerr cfg fs rw pkg p e hig hcond hcd]; exact hx
      | ok pr =>
        obtain ⟨fs2, evs⟩ := pr
        cases hupd : cfg.updateImports with
        | true =>
          rw [materializePhase_eq_copyok_upd cfg fs rw pkg p fs2 evs hig hcond hcd hupd]
          simp [hx]
        | false =>
          rw [materializePhase_eq_copyok_noupd cfg fs rw pkg p fs2 evs hig hcond hcd hupd]
          simp [hx]

theorem materializePhase_events_noTrav (cfg : Cfg) (fs : FS)
    (rw : List (String × String)) (pkg : Pkg) (p : String) :
    ∀ e ∈ (materializePhase cfg fs rw pkg p).2.2.2, e.isTrav = false := by
  intro e he
  cases hig : ignoredB rw cfg.blacklist p with
  | true =>
    cases hupd : cfg.updateImports with
    | true =>
      rw [materializePhase_eq_ig_upd cfg fs rw pkg p hig hupd] at he
      obtain ⟨q, hq⟩ := rewriteFiles_events cfg.dry rw pkg.dir pkg.dir _ fs e he
      simp [hq, Ev.isTrav]
    | false =>
      rw [materializePhase_eq_ig_noupd cfg fs rw pkg p hig hupd] at he
      simp at he
  | false =>
    cases hcond : (cfg.force || !fsExists fs (pkgDirOf cfg p)) with
    | false =>
      rw [materializePhase_eq_preexisting cfg fs rw pkg p hig hcond] at he
      simp at he
    | true =>
      cases hcd : copyDir cfg.dry cfg.force fs (pkgDirOf cfg p) pkg.dir with
      | error er =>
        rw [materializePhase_eq_copyerr cfg fs rw pkg p er hig hcond hcd] at he
        simp at he
      | ok pr =>
        obtain ⟨fs2, evs⟩ := pr
        cases hupd : cfg.updateImports with
        | true =>
          rw [materializePhase_eq_copyok_upd cfg fs rw pkg p fs2 evs hig hcond hcd hupd] at he
          simp only [List.mem_append, List.mem_singleton] at he
          rcases he with (he | he) | he
          · exact copyDir_events_noTrav _ _ _ _ _ _ _ hcd e he
          · simp [he, Ev.isTrav]
          · obtain ⟨q, hq⟩ := rewriteFiles_events cfg.dry _ _ pkg.dir _ fs2 e he
            simp [hq, Ev.isTrav]
        | false =>
          rw [materializePhase_eq_copyok_noupd cfg fs rw pkg p fs2 evs hig hcond hcd hupd] at he
          simp only [List.mem_append, List.mem_singleton] at he
          rcases he with he | he
          · exact copyDir_events_noTrav _ _ _ _ _ _ _ hcd e he
          · simp [he, Ev.isTrav]

theorem materializePhase_dry (cfg : Cfg) (fs : FS) (rw : List (String × String))
    (pkg : Pkg) (p : String) (hdry : cfg.dry = true) :
    (materializePhase cfg fs rw pkg p).1 = fs ∧
      ∀ e ∈ (materializePhase cfg fs rw pkg p).2.2.2, e.isWrite = false := by
  cases hig : ignoredB rw cfg.blacklist p with
  | true =>
    cases hupd : cfg.updateImports with
    | true =>
      rw [materializePhase_eq_ig_upd cfg fs rw pkg p hig hupd, hdry, rewriteFiles_dry]
      simp
    | false =>
      rw [materializePhase_eq_ig_noupd cfg fs rw pkg p hig hupd]
      simp
  | false =>
    cases hcond : (cfg.force || !fsExists fs (pkgDirOf cfg p)) with
    | false =>
      rw [materializePhase_eq_preexisting cfg fs rw pkg p hig hcond]
      simp
    | true =>
      cases hcd : copyDir cfg.dry cfg.force fs (pkgDirOf cfg p) pkg.dir with
      | error er =>
        rw [materializePhase_eq_copyerr cfg fs rw pkg p er hig hcond hcd]
        simp
      | ok pr =>
        have hcd0 := hcd
        have hpr : pr = (fs, []) := by
          rw [hdry, copyDir_dry] at hcd
          split at hcd
          · exact (Except.ok.inj hcd).symm
          · simp at hcd
        subst hpr
        cases hupd : cfg.updateImports with
        | true =>
          rw [materializePhase_eq_copyok_upd cfg fs rw pkg p fs [] hig hcond hcd0 hupd,
            hdry, rewriteFiles_dry]
          refine ⟨rfl, ?_⟩
          intro e he
          simp at he
          simp [he, Ev.isWrite]
        | false =>
          rw [materializePhase_eq_copyok_noupd cfg fs rw pkg p fs [] hig hcond hcd0 hupd]
          refine ⟨rfl, ?_⟩
          intro e he
          simp at he
          simp [he, Ev.isWrite]

theorem vendorizeStep_eq_nolookup (cfg : Cfg) (fs : FS) (rw : List (String × String))
    (vis : List String) (p : String) (h : p ∉ vis)
    (hlk : lookupA cfg.env p = none) :
    vendorizeStep cfg fs rw vis p =
      { spawns := [], fs := fs, rewrites := rw,
        err := some ("Couldnt import " ++ p), events := [Ev.traversed p] } := by
  simp [vendorizeStep, h, hlk]

theorem vendorizeStep_eq_goroot (cfg : Cfg) (fs : FS) (rw : List (String × String))
    (vis : List String) (p : String) (pkg : Pkg) (h : p ∉ vis)
    (hlk : lookupA cfg.env p = some pkg) (hg : pkg.goroot = true) :
    vendorizeStep cfg fs rw vis p =
      { spawns := [], fs := fs, rewrites := rw,
        err := some "Cant vendorize packages from GOROOT",
        events := [Ev.traversed p] } := by
  simp [vendorizeStep, h, hlk, hg]

theorem vendorizeStep_eq_reserr (cfg : Cfg) (fs : FS) (rw : List (String × String))
    (vis : List String) (p : String) (pkg : Pkg) (e : String) (h : p ∉ vis)
    (hlk : lookupA cfg.env p = some pkg) (hg : pkg.goroot = false)
    (hres : resolveImports cfg.env (getAllImports pkg) = .error e) :
    vendorizeStep cfg fs rw vis p =
      { spawns := [], fs := fs, rewrites := rw, err := some e,
        events := [Ev.traversed p] } := by
  simp [vendorizeStep, h, hlk, hg, hres]

theorem vendorizeStep_eq_main (cfg : Cfg) (fs : FS) (rw : List (String × String))
    (vis : List String) (p : String) (pkg : Pkg) (pkgs : List Pkg) (h : p ∉ vis)
    (hlk : lookupA cfg.env p = some pkg) (hg : pkg.goroot = false)
    (hres : resolveImports cfg.env (getAllImports pkg) = .ok pkgs) :
    vendorizeStep cfg fs rw vis p =
      { spawns := (pkgs.filter (fun pk =>
          decide (pk.importPath ≠ p ∧ pk.importPath ∉ vis))).map
            (fun pk => pk.importPath),
        fs := (materializePhase cfg fs rw pkg p).1,
        rewrites := (materializePhase cfg fs rw pkg p).2.1,
        err := (materializePhase cfg fs rw pkg p).2.2.1,
        events := Ev.traversed p :: (materializePhase cfg fs rw pkg p).2.2.2 } := by
  simp [vendorizeStep, h, hlk, hg, hres]

theorem vendorizeStep_events_shape (cfg : Cfg) (fs : FS) (rw : List (String × String))
    (vis : List String) (p : String) (h : p ∉ vis) :
    ∃ tl, (vendorizeStep cfg fs rw vis p).events = Ev.traversed p :: tl ∧
      ∀ e ∈ tl, e.isTrav = false := by
  cases hlk : lookupA cfg.env p with
  | none =>
    rw [vendorizeStep_eq_nolookup cfg fs rw vis p h hlk]
    exact ⟨[], rfl, by simp⟩
  | some pkg =>
    cases hg : pkg.goroot with
    | true =>
      rw [vendorizeStep_eq_goroot cfg fs rw vis p pkg h hlk hg]
      exact ⟨[], rfl, by simp⟩
    | false =>
      cases hres : resolveImports cfg.env (getAllImports pkg) with
      | error e =>
        rw [vendorizeStep_eq_reserr cfg fs rw vis p pkg e h hlk hg hres]
        exact ⟨[], rfl, by simp⟩
      | ok pkgs =>
        rw [vendorizeStep_eq_main cfg fs rw vis p pkg pkgs h hlk hg hres]
        exact ⟨_, rfl, materializePhase_events_noTrav cfg fs rw pkg p⟩

theorem vendorizeStep_rw_mem (cfg : Cfg) (fs : FS) (rw : List (String × String))
    (vis : List String) (p : String) :
    ∀ x ∈ (vendorizeStep cfg fs rw vis p).rewrites, x ∈ rw ∨
      (x = (p, newPathOf cfg p) ∧ ignoredB rw cfg.blacklist p = false ∧
        Ev.materialized p ∈ (vendorizeStep cfg fs rw vis p).events) := by
  intro x hx
  by_cases h : p ∈ vis
  · rw [vendorizeStep_visited cfg fs rw vis p h] at hx
    exact Or.inl hx
  cases hlk : lookupA cfg.env p with
  | none =>
    rw [vendorizeStep_eq_nolookup cfg fs rw vis p h hlk] at hx
    exact Or.inl hx
  | some pkg =>
    cases hg : pkg.goroot with
    | true =>
      rw [vendorizeStep_eq_goroot cfg fs rw vis p pkg h hlk hg] at hx
      exact Or.inl hx
    | false =>
      cases hres : resolveImports cfg.env (getAllImports pkg) with
      | error e =>
        rw [vendorizeStep_eq_reserr cfg fs rw vis p pkg e h hlk hg hres] at hx
        exact Or.inl hx
      | ok pkgs =>
        rw [vendorizeStep_eq_main cfg fs rw vis p pkg pkgs h hlk hg hres] at hx ⊢
        rcases materializePhase_rw_mem cfg fs rw pkg p x hx with hm | ⟨h1, h2, h3⟩
        · exact Or.inl hm
        · exact Or.inr ⟨h1, h2, by simp [h3]⟩

theorem vendorizeStep_rw_mono (cfg : Cfg) (fs : FS) (rw : List (String × String))
    (vis : List String) (p : String) :
    ∀ x ∈ rw, x ∈ (vendorizeStep cfg fs rw vis p).rewrites := by
  intro x hx
  by_cases h : p ∈ vis
  · rw [vendorizeStep_visited cfg fs rw vis p h]
    exact hx
  cases hlk : lookupA cfg.env p with
  | none =>
    rw [vendorizeStep_eq_nolookup cfg fs rw vis p h hlk]
    exact hx
  | some pkg =>
    cases hg : pkg.goroot with
    | true =>
      rw [vendorizeStep_eq_goroot cfg fs rw vis p pkg h hlk hg]
      exact hx
    | false =>
      cases hres : resolveImports cfg.env (getAllImports pkg) with
      | error e =>
        rw [vendorizeStep_eq_reserr cfg fs rw vis p pkg e h hlk hg hres]
        exact hx
      | ok pkgs =>
        rw [vendorizeStep_eq_main cfg fs rw vis p pkg pkgs h hlk hg hres]
        exact materializePhase_rw_mono cfg fs rw pkg p x hx

theorem vendorizeStep_dry (cfg : Cfg) (fs : FS) (rw : List (String × String))
    (vis : List String) (p : String) (hdry : cfg.dry = true) :
    (vendorizeStep cfg fs rw vis p).fs = fs ∧
      ∀ e ∈ (vendorizeStep cfg fs rw vis p).events, e.isWrite = false := by
  by_cases h : p ∈ vis
  · rw [vendorizeStep_visited cfg fs rw vis p h]
    exact ⟨rfl, by simp⟩
  cases hlk : lookupA cfg.env p with
  | none =>
    rw [vendorizeStep_eq_nolookup cfg fs rw vis p h hlk]
    exact ⟨rfl, by simp [Ev.isWrite]⟩
  | some pkg =>
    cases hg : pkg.goroot with
    | true =>
      rw [vendorizeStep_eq_goroot cfg fs rw vis p pkg h hlk hg]
      exact ⟨rfl, by simp [Ev.isWrite]⟩
    | false =>
      cases hres : resolveImports cfg.env (getAllImports pkg) with
      | error e =>
        rw [vendorizeStep_eq_reserr cfg fs rw vis p pkg e h hlk hg hres]
        exact ⟨rfl, by simp [Ev.isWrite]⟩
      | ok pkgs =>
        rw [vendorizeStep_eq_main cfg fs rw vis p pkg pkgs h hlk hg hres]
        obtain ⟨h1, h2⟩ := materializePhase_dry cfg fs rw pkg p hdry
        refine ⟨h1, ?_⟩
        intro e he
        simp only [List.mem_cons] at he
        rcases he with he | he
        · simp [he, Ev.isWrite]
        · exact h2 e he

theorem pickedPath_mem (k : Nat) (st : St) (h : st.pending ≠ []) :
    pickedPath k st ∈ st.pending := by
  have hpos : 0 < st.pending.length := List.length_pos.mpr h
  have hi : k % st.pending.length < st.pending.length := Nat.mod_lt _ hpos
  rw [pickedPath, List.getD_eq_getElem st.pending "" hi]
  exact List.getElem_mem hi

theorem pending_cover (k : Nat) (st : St) (h : st.pending ≠ []) :
    ∀ x ∈ st.pending, x ∈ restPending k st ∨ x = pickedPath k st := by
  intro x hx
  have hpos : 0 < st.pending.length := List.length_pos.mpr h
  have hi : k % st.pending.length < st.pending.length := Nat.mod_lt _ hpos
  rw [pending_decomp st.pending (k % st.pending.length) hi] at hx
  simp only [List.mem_append, List.mem_cons] at hx
  rcases hx with hx | hx | hx
  · exact Or.inl (by simp [restPending, hx])
  · exact Or.inr hx
  · exact Or.inl (by simp [restPending, hx])

theorem restPending_sub (k : Nat) (st : St) :
    ∀ x ∈ restPending k st, x ∈ st.pending := by
  intro x hx
  simp only [restPending, List.mem_append] at hx
  rcases hx with hx | hx
  · exact List.take_subset _ _ hx
  · exact List.drop_subset _ _ hx

theorem runStep_empty (cfg : Cfg) (k : Nat) (st : St) (h : st.pending = []) :
    runStep cfg k st = st := by
  simp [runStep, h]

theorem runStep_eq (cfg : Cfg) (k : Nat) (st : St) (h : st.pending ≠ []) :
    runStep cfg k st =
      { fs := (vendorizeStep cfg st.fs st.rewrites st.visited (pickedPath k st)).fs
        rewrites := (vendorizeStep cfg st.fs st.rewrites st.visited (pickedPath k st)).rewrites
        visited := if pickedPath k st ∈ st.visited then st.visited
          else pickedPath k st :: st.visited
        pending := restPending k st ++
          (vendorizeStep cfg st.fs st.rewrites st.visited (pickedPath k st)).spawns
        events := st.events ++
          (vendorizeStep cfg st.fs st.rewrites st.visited (pickedPath k st)).events
        errors := st.errors ++
          (match (vendorizeStep cfg st.fs st.rewrites st.visited (pickedPath k st)).err with
            | some e => [e] | none => []) } := by
  simp [runStep, h]

theorem run_inv (cfg : Cfg) (P : St → Prop)
    (hstep : ∀ k st, P st → P (runStep cfg k st)) :
    ∀ (sched : List Nat) (st : St), P st → P (run cfg sched st) := by
  intro sched
  induction sched with
  | nil => intro st h; exact h
  | cons k ks ih => intro st h; exact ih (runStep cfg k st) (hstep k st h)

theorem vendorizeStep_spawns_full (cfg : Cfg) (fs : FS)
    (rw : List (String × String)) (vis : List String) (p : String)
    (h : p ∉ vis) (hok : resolvesOkB cfg.env p = true) :
    (vendorizeStep cfg fs rw vis p).spawns =
      (rawChildren cfg.env p).filter (fun q => decide (q ∉ vis)) := by
  cases hlk : lookupA cfg.env p with
  | none => rw [resolvesOkB, hlk] at hok; simp at hok
  | some pkg =>
    rw [resolvesOkB, hlk] at hok
    simp only [Bool.and_eq_true, Bool.not_eq_eq_eq_not, Bool.not_true,
      List.all_eq_true] at hok
    obtain ⟨hg, hall⟩ := hok
    have hres : resolveImports cfg.env (getAllImports pkg) =
        .ok (extPkgs cfg.env (getAllImports pkg)) := by
      apply resolveImports_of_all
      intro imp himp
      have hx := hall imp himp
      simp only [Bool.or_eq_true, decide_eq_true_eq] at hx
      rcases hx with hc | hs
      · exact Or.inl hc
      · exact Or.inr hs
    rw [vendorizeStep_spawns]
    simp only [stepSpawnsF, if_neg h, hlk, hg, hres, Bool.false_eq_true, if_false]
    rw [rawChildren, hlk]
    rw [List.filter_map]
    rw [List.filter_filter]
    refine congrArg (List.map (fun pk : Pkg => pk.importPath)) ?_
    apply List.filter_congr
    intro pk _
    by_cases h1 : pk.importPath = p <;> by_cases h2 : pk.importPath ∈ vis <;>
      simp [h1, h2, Function.comp]

theorem vendorizeStep_spawns_sub (cfg : Cfg) (fs : FS)
    (rw : List (String × String)) (vis : List String) (p : String) :
    ∀ q ∈ (vendorizeStep cfg fs rw vis p).spawns, q ∈ rawChildren cfg.env p := by
  intro q hq
  rw [vendorizeStep_spawns] at hq
  by_cases h : p ∈ vis
  · simp [stepSpawnsF, h] at hq
  · simp only [stepSpawnsF, if_neg h] at hq
    cases hlk : lookupA cfg.env p with
    | none => simp only [hlk] at hq; simp at hq
    | some pkg =>
      simp only [hlk] at hq
      cases hg : pkg.goroot with
      | true => simp only [hg, if_true] at hq; simp at hq
      | false =>
        simp only [hg, Bool.false_eq_true, if_false] at hq
        cases hres : resolveImports cfg.env (getAllImports pkg) with
        | error e => simp only [hres] at hq; simp at hq
        | ok pkgs =>
          simp only [hres] at hq
          have hpkgs := resolveImports_ok_eq cfg.env _ pkgs hres
          subst hpkgs
          simp only [List.mem_map, List.mem_filter, decide_eq_true_eq] at hq
          obtain ⟨pk, ⟨hmem, hne, hnv⟩, hqe⟩ := hq
          rw [rawChildren, hlk]
          simp only [List.mem_map, List.mem_filter, decide_eq_true_eq]
          exact ⟨pk, ⟨hmem, hne⟩, hqe⟩

/-- Run invariant for the traversal bookkeeping: visited paths are
recorded without duplicates; a task body ran for a path iff the path is
visited, and never ran twice; the root is always accounted for; and
every child of a fully-resolved visited unit is accounted for. -/
def InvA (cfg : Cfg) (root : String) (st : St) : Prop :=
  st.visited.Nodup ∧
  (∀ q, Ev.traversed q ∈ st.events ↔ q ∈ st.visited) ∧
  (∀ q, st.events.count (Ev.traversed q) ≤ 1) ∧
  (root ∈ st.visited ∨ root ∈ st.pending) ∧
  (∀ q ∈ st.visited, resolvesOkB cfg.env q = true →
    ∀ x ∈ rawChildren cfg.env q, x ∈ st.visited ∨ x ∈ st.pending)

theorem InvA_init (cfg : Cfg) (root : String) (fs0 : FS) :
    InvA cfg root (initSt fs0 root) := by
  refine ⟨by simp [initSt], by simp [initSt], by simp [initSt],
    by simp [initSt], by simp [initSt]⟩

theorem InvA_step (cfg : Cfg) (root : String) (k : Nat) (st : St)
    (hInv : InvA cfg root st) : InvA cfg root (runStep cfg k st) := by
  obtain ⟨h1, h2, h3, h4, h5⟩ := hInv
  by_cases hp : st.pending = []
  · rw [runStep_empty cfg k st hp]
    exact ⟨h1, h2, h3, h4, h5⟩
  rw [runStep_eq cfg k st hp]
  by_cases hv : pickedPath k st ∈ st.visited
  · rw [vendorizeStep_visited cfg st.fs st.rewrites st.visited (pickedPath k st) hv]
    simp only [if_pos hv, List.append_nil]
    refine ⟨h1, h2, h3, ?_, ?_⟩
    · rcases h4 with h4 | h4
      · exact Or.inl h4
      · rcases pending_cover k st hp root h4 with hc | hc
        · exact Or.inr (by simp [hc])
        · exact Or.inl (hc ▸ hv)
    · intro q hq hok x hx
      rcases h5 q hq hok x hx with hm | hm
      · exact Or.inl hm
      · rcases pending_cover k st hp x hm with hc | hc
        · exact Or.inr (by simp [hc])
        · exact Or.inl (hc ▸ hv)
  · simp only [if_neg hv]
    obtain ⟨tl, htl, htlno⟩ :=
      vendorizeStep_events_shape cfg st.fs st.rewrites st.visited (pickedPath k st) hv
    have htrav_tl : ∀ q2, Ev.traversed q2 ∉ tl := by
      intro q2 hmem
      have := htlno _ hmem
      simp [Ev.isTrav] at this
    refine ⟨?_, ?_, ?_, ?_, ?_⟩
    · exact List.Nodup.cons hv h1
    · intro q
      rw [htl]
      simp only [List.mem_append, List.mem_cons]
      constructor
      · intro hq
        rcases hq with hq | hq
        · exact Or.inr ((h2 q).mp hq)
        · rcases hq with hq | hq
          · exact Or.inl (by simpa using hq)
          · exact absurd hq (htrav_tl q)
      · intro hq
        rcases hq with hq | hq
        · exact Or.inr (Or.inl (by simp [hq]))
        · exact Or.inl ((h2 q).mpr hq)
    · intro q
      rw [htl, List.count_append]
      by_cases hq : q = pickedPath k st
      · rw [hq]
        have hz : st.events.count (Ev.traversed (pickedPath k st)) = 0 := by
          rw [List.count_eq_zero]
          intro hmem
          exact hv ((h2 _).mp hmem)
        rw [hz, List.count_cons_self, List.count_eq_zero.mpr (htrav_tl _)]
      · have hne : Ev.traversed q ≠ Ev.traversed (pickedPath k st) := by
          intro hh
          exact hq (by simpa using hh)
        rw [List.count_cons_of_ne hne, List.count_eq_zero.mpr (htrav_tl q)]
        simpa using h3 q
    · rcases h4 with h4 | h4
      · exact Or.inl (by simp [h4])
      · rcases pending_cover k st hp root h4 with hc | hc
        · exact Or.inr (by simp [hc])
        · exact Or.inl (by simp [hc])
    · intro q hq hok x hx
      simp only [List.mem_cons] at hq
      rcases hq with hq | hq
      · subst hq
        rw [vendorizeStep_spawns_full cfg st.fs st.rewrites st.visited
          (pickedPath k st) hv hok]
        by_cases hxv : x ∈ st.visited
        · exact Or.inl (by simp [hxv])
        · refine Or.inr ?_
          simp only [List.mem_append]
          refine Or.inr ?_
          simp only [List.mem_filter, decide_eq_true_eq]
          exact ⟨hx, hxv⟩
      · rcases h5 q hq hok x hx with hm | hm
        · exact Or.inl (by simp [hm])
        · rcases pending_cover k st hp x hm with hc | hc
          · exact Or.inr (by simp [hc])
          · exact Or.inl (by simp [hc])

theorem InvA_run (cfg : Cfg) (root : String) (fs0 : FS) (sched : List Nat) :
    InvA cfg root (run cfg sched (initSt fs0 root)) :=
  run_inv cfg (InvA cfg root) (InvA_step cfg root) sched (initSt fs0 root)
    (InvA_init cfg root fs0)

theorem reachN_mono_succ (env : List (String × Pkg)) (root : String) (n : Nat) :
    ∀ p ∈ reachN env root n, p ∈ reachN env root (n + 1) := by
  intro p hp
  simp only [reachN, reachIter, List.mem_dedup, List.mem_append]
  exact Or.inl hp

theorem reach_visited (cfg : Cfg) (root : String) (fs0 : FS) (sched : List Nat)
    (n : Nat)
    (hok : ∀ q ∈ reachN cfg.env root n, resolvesOkB cfg.env q = true)
    (hdone : (run cfg sched (initSt fs0 root)).pending = []) :
    ∀ p ∈ reachN cfg.env root n, p ∈ (run cfg sched (initSt fs0 root)).visited := by
  induction n with
  | zero =>
    intro p hp
    simp only [reachN, List.mem_singleton] at hp
    subst hp
    obtain ⟨-, -, -, h4, -⟩ := InvA_run cfg p fs0 sched
    rcases h4 with h4 | h4
    · exact h4
    · rw [hdone] at h4; simp at h4
  | succ n ih =>
    have hokn : ∀ q ∈ reachN cfg.env root n, resolvesOkB cfg.env q = true :=
      fun q hq => hok q (reachN_mono_succ cfg.env root n q hq)
    intro p hp
    simp only [reachN, reachIter, List.mem_dedup, List.mem_append,
      List.mem_flatMap] at hp
    rcases hp with hp | ⟨q, hq, hp⟩
    · exact ih hokn p hp
    · obtain ⟨-, -, -, -, h5⟩ := InvA_run cfg root fs0 sched
      have hqv := ih hokn q hq
      rcases h5 q hqv (hokn q hq) p hp with hm | hm
      · exact hm
      · rw [hdone] at hm; simp at hm

theorem self_notin_rawChildren (env : List (String × Pkg)) (p : String) :
    p ∉ rawChildren env p := by
  intro hmem
  rw [rawChildren] at hmem
  cases hlk : lookupA env p with
  | none => rw [hlk] at hmem; simp at hmem
  | some pkg =>
    rw [hlk] at hmem
    simp only [List.mem_map, List.mem_filter, decide_eq_true_eq] at hmem
    obtain ⟨pk, ⟨-, hne⟩, heq⟩ := hmem
    exact hne heq

/-- C1: on every serialized schedule of the concurrent traversal, every
unit reachable from the root (in particular on an acyclic import graph,
where the hypothesis that all reachable units resolve to external
packages is the standing assumption of the specification) and not
matching an exclusion prefix is visited by the completed run, its task
body ran exactly once, and no identifier whatsoever has its traversal
body run twice.  `reachN` is the set reachable in at most `n` steps, so
quantifying over `n` covers the whole closure. -/
theorem claim_C1_visit_exactly_once (cfg : Cfg) (fs0 : FS) (root : String)
    (sched : List Nat) (n : Nat) (p : String)
    (hok : ∀ q ∈ reachN cfg.env root n, resolvesOkB cfg.env q = true)
    (hdone : (run cfg sched (initSt fs0 root)).pending = [])
    (hp : p ∈ reachN cfg.env root n)
    (hexcl : cfg.blacklist.any (fun b => hasPrefixS b p) = false) :
    p ∈ (run cfg sched (initSt fs0 root)).visited ∧
      (run cfg sched (initSt fs0 root)).events.count (Ev.traversed p) = 1 ∧
      ∀ q : String,
        (run cfg sched (initSt fs0 root)).events.count (Ev.traversed q) ≤ 1 := by
  obtain ⟨-, h2, h3, -, -⟩ := InvA_run cfg root fs0 sched
  have hvis := reach_visited cfg root fs0 sched n hok hdone p hp
  refine ⟨hvis, ?_, h3⟩
  have hmem : Ev.traversed p ∈ (run cfg sched (initSt fs0 root)).events :=
    (h2 p).mpr hvis
  have hpos : 0 < (run cfg sched (initSt fs0 root)).events.count (Ev.traversed p) :=
    List.count_pos_iff.mpr hmem
  have hle := h3 p
  omega

/-- C9: the self-import guard.  A task never spawns a recursion into
its own identifier (for any unit, in particular one that imports itself
through its test files), and on any serialized schedule an identifier
occurs at most once in the visited set of a run. -/
theorem claim_C9_self_import (cfg : Cfg) (p : String) (pkg : Pkg)
    (hlk : lookupA cfg.env p = some pkg)
    (hself : p ∈ getAllImports pkg) :
    (∀ (fs : FS) (rw : List (String × String)) (vis : List String),
      p ∉ (vendorizeStep cfg fs rw vis p).spawns) ∧
    (∀ (fs0 : FS) (root : String) (sched : List Nat),
      ((run cfg sched (initSt fs0 root)).visited).count p ≤ 1) := by
  constructor
  · intro fs rw vis hq
    exact self_notin_rawChildren cfg.env p
      (vendorizeStep_spawns_sub cfg fs rw vis p p hq)
  · intro fs0 root sched
    obtain ⟨h1, -, -, -, -⟩ := InvA_run cfg root fs0 sched
    exact List.nodup_iff_count_le_one.mp h1 p

/-- Shared constructor for concrete witness packages. -/
def mkPkg (ip : String) (d : List String) (imps tsts : List String) : Pkg :=
  { importPath := ip, dir := d, goroot := false, imports := imps,
    testImports := tsts, xtestImports := [], goFiles := [], cgoFiles := [],
    testGoFiles := [], xtestGoFiles := [] }

/-- Witness universe for the traversal claims: root `r` imports `a`. -/
def envW1 : List (String × Pkg) :=
  [("r", mkPkg "r" ["sr"] ["a"] []), ("a", mkPkg "a" ["sa"] [] [])]

/-- Witness filesystem: the two source directories exist. -/
def fsW1 : FS := { dirs := [["sr"], ["sa"]], files := [], unreadable := [] }

/-- Witness configuration for the traversal claims. -/
def cfgW1 : Cfg := mkCfg envW1 ["g"] [] "r" "dst" false false false

theorem claim_C1_witness :
    "a" ∈ (run cfgW1 [0, 0] (initSt fsW1 "r")).visited ∧
      (run cfgW1 [0, 0] (initSt fsW1 "r")).events.count (Ev.traversed "a") = 1 ∧
      (run cfgW1 [0, 0] (initSt fsW1 "r")).events.count (Ev.traversed "r") ≤ 1 := by
  obtain ⟨w1, w2, w3⟩ := claim_C1_visit_exactly_once cfgW1 fsW1 "r" [0, 0] 1 "a"
    (by decide) (by decide) (by decide) (by decide)
  exact ⟨w1, w2, w3 "r"⟩

/-- Witness universe for the self-import claim: `s` imports itself
through its test files. -/
def envW9 : List (String × Pkg) := [("s", mkPkg "s" ["ss"] [] ["s"])]

/-- Witness filesystem for the self-import claim. -/
def fsW9 : FS := { dirs := [["ss"]], files := [], unreadable := [] }

/-- Witness configuration for the self-import claim. -/
def cfgW9 : Cfg := mkCfg envW9 ["g"] [] "s" "dst" false false false

theorem claim_C9_witness :
    "s" ∉ (vendorizeStep cfgW9 fsW9 [] [] "s").spawns ∧
      ((run cfgW9 [0, 0] (initSt fsW9 "s")).visited).count "s" ≤ 1 := by
  obtain ⟨w1, w2⟩ := claim_C9_self_import cfgW9 "s" (mkPkg "s" ["ss"] [] ["s"])
    (by decide) (by decide)
  exact ⟨w1 fsW9 [] [], w2 fsW9 "s" [0, 0]⟩

theorem hasPrefixS_self (s : String) : hasPrefixS s s = true := by
  rw [hasPrefixS]
  induction s.data with
  | nil => rfl
  | cons c cs ih => simp [List.isPrefixOf, ih]

/-- Run invariant for the rewrites map: every binding was recorded for
a visited path, maps to the deterministic destination identifier, was
recorded by a successful copy step, and its key matches no exclusion
prefix. -/
def InvB (cfg : Cfg) (st : St) : Prop :=
  ∀ x ∈ st.rewrites, x.1 ∈ st.visited ∧ x.2 = newPathOf cfg x.1 ∧
    Ev.materialized x.1 ∈ st.events ∧
    cfg.blacklist.any (fun b => hasPrefixS b x.1) = false

theorem InvB_init (cfg : Cfg) (root : String) (fs0 : FS) :
    InvB cfg (initSt fs0 root) := by
  intro x hx
  simp [initSt] at hx

theorem InvB_step (cfg : Cfg) (k : Nat) (st : St)
    (hInv : InvB cfg st) : InvB cfg (runStep cfg k st) := by
  by_cases hp : st.pending = []
  · rw [runStep_empty cfg k st hp]
    exact hInv
  rw [runStep_eq cfg k st hp]
  intro x hx
  rcases vendorizeStep_rw_mem cfg st.fs st.rewrites st.visited (pickedPath k st)
      x hx with hold | ⟨hx1, hig, hmat⟩
  · obtain ⟨a1, a2, a3, a4⟩ := hInv x hold
    refine ⟨?_, a2, by simp [a3], a4⟩
    by_cases hv : pickedPath k st ∈ st.visited <;> simp [hv, a1]
  · have hbl : cfg.blacklist.any (fun b => hasPrefixS b (pickedPath k st)) = false := by
      rw [ignoredB, Bool.or_eq_false_iff] at hig
      exact hig.2
    subst hx1
    refine ⟨?_, rfl, by simp [hmat], hbl⟩
    by_cases hv : pickedPath k st ∈ st.visited <;> simp [hv]

theorem InvB_run (cfg : Cfg) (root : String) (fs0 : FS) (sched : List Nat) :
    InvB cfg (run cfg sched (initSt fs0 root)) :=
  run_inv cfg (InvB cfg) (InvB_step cfg) sched (initSt fs0 root)
    (InvB_init cfg root fs0)

/-- C3: at the end of every completed run, the rewrites map is keyed
only by visited identifiers whose copy step actually ran (not excluded
ones, not ones skipped as preexisting — both leave no `materialized`
record and no key), every key maps to the deterministic destination
identifier `dest + "/" + key`, and the containment in `visited` is
strict: the root is always visited yet never a key. -/
theorem claim_C3_rewrites_subset (env : List (String × Pkg)) (gopath : List String)
    (userBL : List String) (root dest : String) (force upd dry : Bool)
    (fs0 : FS) (sched : List Nat)
    (hdone : (run (mkCfg env gopath userBL root dest force upd dry) sched
      (initSt fs0 root)).pending = []) :
    (∀ x ∈ (run (mkCfg env gopath userBL root dest force upd dry) sched
        (initSt fs0 root)).rewrites,
      x.1 ∈ (run (mkCfg env gopath userBL root dest force upd dry) sched
        (initSt fs0 root)).visited ∧
      x.2 = dest ++ "/" ++ x.1 ∧
      Ev.materialized x.1 ∈ (run (mkCfg env gopath userBL root dest force upd dry)
        sched (initSt fs0 root)).events ∧
      (mkCfg env gopath userBL root dest force upd dry).blacklist.any
        (fun b => hasPrefixS b x.1) = false) ∧
    root ∈ (run (mkCfg env gopath userBL root dest force upd dry) sched
      (initSt fs0 root)).visited ∧
    lookupA (run (mkCfg env gopath userBL root dest force upd dry) sched
      (initSt fs0 root)).rewrites root = none := by
  have hB := InvB_run (mkCfg env gopath userBL root dest force upd dry) root fs0 sched
  obtain ⟨-, -, -, h4, -⟩ :=
    InvA_run (mkCfg env gopath userBL root dest force upd dry) root fs0 sched
  have hrootv : root ∈ (run (mkCfg env gopath userBL root dest force upd dry) sched
      (initSt fs0 root)).visited := by
    rcases h4 with h4 | h4
    · exact h4
    · rw [hdone] at h4; simp at h4
  refine ⟨fun x hx => hB x hx, hrootv, ?_⟩
  cases hlkr : lookupA (run (mkCfg env gopath userBL root dest force upd dry) sched
      (initSt fs0 root)).rewrites root with
  | none => rfl
  | some v =>
    obtain ⟨-, -, -, hbl⟩ := hB (root, v) (mem_of_lookupA _ _ _ hlkr)
    have hmem : root ∈ (mkCfg env gopath userBL root dest force upd dry).blacklist := by
      simp [mkCfg]
    have : (mkCfg env gopath userBL root dest force upd dry).blacklist.any
        (fun b => hasPrefixS b root) = true :=
      List.any_eq_true.mpr ⟨root, hmem, hasPrefixS_self root⟩
    rw [hbl] at this
    exact absurd this (by simp)

/-- C2: a unit whose identifier matches an exclusion prefix (the
exclusion set always contains the root identifier and the destination
prefix besides the user-supplied ones, and matching is a plain
string-prefix test) is never a key of the rewrites map, while the
spawn decision for its imports does not consult the exclusion set at
all, so its reachable imports are traversed exactly as for any other
unit and may themselves be copied. -/
theorem claim_C2_excluded_never_key (env : List (String × Pkg)) (gopath : List String)
    (userBL : List String) (root dest : String) (force upd dry : Bool)
    (fs0 : FS) (sched : List Nat) (p : String)
    (hexcl : (mkCfg env gopath userBL root dest force upd dry).blacklist.any
      (fun b => hasPrefixS b p) = true) :
    lookupA (run (mkCfg env gopath userBL root dest force upd dry) sched
      (initSt fs0 root)).rewrites p = none ∧
    root ∈ (mkCfg env gopath userBL root dest force upd dry).blacklist ∧
    dest ∈ (mkCfg env gopath userBL root dest force upd dry).blacklist ∧
    (∀ (bl2 : List String) (fs : FS) (rw : List (String × String))
      (vis : List String),
      (vendorizeStep { mkCfg env gopath userBL root dest force upd dry with
        blacklist := bl2 } fs rw vis p).spawns =
        (vendorizeStep (mkCfg env gopath userBL root dest force upd dry)
          fs rw vis p).spawns) := by
  have hB := InvB_run (mkCfg env gopath userBL root dest force upd dry) root fs0 sched
  refine ⟨?_, by simp [mkCfg], by simp [mkCfg], ?_⟩
  · cases hlkr : lookupA (run (mkCfg env gopath userBL root dest force upd dry) sched
        (initSt fs0 root)).rewrites p with
    | none => rfl
    | some v =>
      obtain ⟨-, -, -, hbl⟩ := hB (p, v) (mem_of_lookupA _ _ _ hlkr)
      rw [hbl] at hexcl
      exact absurd hexcl (by simp)
  · intro bl2 fs rw vis
    rw [vendorizeStep_spawns, vendorizeStep_spawns]

/-- Witness universe for the exclusion claim: the root imports a unit
under its own prefix, which imports an unrelated unit. -/
def envW2 : List (String × Pkg) :=
  [("r", mkPkg "r" ["sr"] ["r/sub"] []),
   ("r/sub", mkPkg "r/sub" ["srs"] ["b"] []),
   ("b", mkPkg "b" ["sb"] [] [])]

/-- Witness filesystem for the exclusion claim. -/
def fsW2 : FS := { dirs := [["sr"], ["srs"], ["sb"]], files := [], unreadable := [] }

/-- Witness configuration for the exclusion claim. -/
def cfgW2 : Cfg := mkCfg envW2 ["g"] [] "r" "dst" false false false

theorem claim_C2_witness :
    lookupA (run cfgW2 [0, 0, 0] (initSt fsW2 "r")).rewrites "r/sub" = none ∧
      "r" ∈ cfgW2.blacklist ∧ "dst" ∈ cfgW2.blacklist ∧
      (vendorizeStep { cfgW2 with blacklist := [] } fsW2 [] [] "r/sub").spawns =
        (vendorizeStep cfgW2 fsW2 [] [] "r/sub").spawns := by
  obtain ⟨w1, w2, w3, w4⟩ := claim_C2_excluded_never_key envW2 ["g"] [] "r" "dst"
    false false false fsW2 [0, 0, 0] "r/sub" (by decide)
  exact ⟨w1, w2, w3, w4 [] fsW2 [] []⟩

theorem claim_C3_witness :
    ("a" ∈ (run cfgW1 [0, 0] (initSt fsW1 "r")).visited ∧
      "dst/a" = "dst" ++ "/" ++ "a" ∧
      Ev.materialized "a" ∈ (run cfgW1 [0, 0] (initSt fsW1 "r")).events ∧
      cfgW1.blacklist.any (fun b => hasPrefixS b "a") = false) ∧
    "r" ∈ (run cfgW1 [0, 0] (initSt fsW1 "r")).visited ∧
    lookupA (run cfgW1 [0, 0] (initSt fsW1 "r")).rewrites "r" = none := by
  obtain ⟨w1, w2, w3⟩ := claim_C3_rewrites_subset envW1 ["g"] [] "r" "dst"
    false false false fsW1 [0, 0] (by decide)
  exact ⟨w1 ("a", "dst/a") (by decide), w2, w3⟩

theorem runStep_coupled_vp (cfg1 cfg2 : Cfg) (henv : cfg1.env = cfg2.env)
    (k : Nat) (st1 st2 : St) (hv : st1.visited = st2.visited)
    (hp : st1.pending = st2.pending) :
    (runStep cfg1 k st1).visited = (runStep cfg2 k st2).visited ∧
      (runStep cfg1 k st1).pending = (runStep cfg2 k st2).pending := by
  by_cases hpe : st1.pending = []
  · rw [runStep_empty cfg1 k st1 hpe, runStep_empty cfg2 k st2 (hp ▸ hpe)]
    exact ⟨hv, hp⟩
  · have hpe2 : st2.pending ≠ [] := hp ▸ hpe
    have hpick : pickedPath k st1 = pickedPath k st2 := by
      rw [pickedPath, pickedPath, hp]
    have hrest : restPending k st1 = restPending k st2 := by
      rw [restPending, restPending, hp]
    have hsp : (vendorizeStep cfg1 st1.fs st1.rewrites st1.visited
        (pickedPath k st1)).spawns =
        (vendorizeStep cfg2 st2.fs st2.rewrites st2.visited
          (pickedPath k st2)).spawns := by
      rw [vendorizeStep_spawns, vendorizeStep_spawns, henv, hv, hpick]
    rw [runStep_eq cfg1 k st1 hpe, runStep_eq cfg2 k st2 hpe2]
    constructor
    · simp only [hpick, hv]
    · simp only [hrest, hsp]

theorem run_coupled_vp (cfg1 cfg2 : Cfg) (henv : cfg1.env = cfg2.env) :
    ∀ (sched : List Nat) (st1 st2 : St), st1.visited = st2.visited →
    st1.pending = st2.pending →
    (run cfg1 sched st1).visited = (run cfg2 sched st2).visited ∧
      (run cfg1 sched st1).pending = (run cfg2 sched st2).pending := by
  intro sched
  induction sched with
  | nil => intro st1 st2 hv hp; exact ⟨hv, hp⟩
  | cons k ks ih =>
    intro st1 st2 hv hp
    obtain ⟨hv2, hp2⟩ := runStep_coupled_vp cfg1 cfg2 henv k st1 st2 hv hp
    exact ih (runStep cfg1 k st1) (runStep cfg2 k st2) hv2 hp2

theorem run_dry_frame (cfg : Cfg) (hdry : cfg.dry = true) (fs0 : FS) :
    ∀ (sched : List Nat) (st : St), st.fs = fs0 →
    (∀ e ∈ st.events, e.isWrite = false) →
    (run cfg sched st).fs = fs0 ∧
      ∀ e ∈ (run cfg sched st).events, e.isWrite = false := by
  intro sched
  induction sched with
  | nil => intro st h1 h2; exact ⟨h1, h2⟩
  | cons k ks ih =>
    intro st h1 h2
    apply ih
    · by_cases hp : st.pending = []
      · rw [runStep_empty cfg k st hp]; exact h1
      · rw [runStep_eq cfg k st hp]
        rw [(vendorizeStep_dry cfg st.fs st.rewrites st.visited
          (pickedPath k st) hdry).1]
        exact h1
    · by_cases hp : st.pending = []
      · rw [runStep_empty cfg k st hp]; exact h2
      · rw [runStep_eq cfg k st hp]
        intro e he
        simp only [List.mem_append] at he
        rcases he with he | he
        · exact h2 e he
        · exact (vendorizeStep_dry cfg st.fs st.rewrites st.visited
            (pickedPath k st) hdry).2 e he

/-- C5 (amended): a dry run under any schedule discovers exactly the
same visited set (and pending queue) as the real run under the same
schedule, and leaves the filesystem untouched with no write events —
but the planned rewrites map is not always the same as the real run's
map (the real run's `MkdirAll` can create a parent directory that makes
a later unit look preexisting), and in dry mode the rewrite operation
returns success immediately without any parsing validation. -/
theorem claim_C5_dry_run (cfg : Cfg) (fs0 : FS) (root : String) (sched : List Nat) :
    (run { cfg with dry := true } sched (initSt fs0 root)).visited =
      (run { cfg with dry := false } sched (initSt fs0 root)).visited ∧
    (run { cfg with dry := true } sched (initSt fs0 root)).pending =
      (run { cfg with dry := false } sched (initSt fs0 root)).pending ∧
    (run { cfg with dry := true } sched (initSt fs0 root)).fs = fs0 ∧
    (∀ e ∈ (run { cfg with dry := true } sched (initSt fs0 root)).events,
      e.isWrite = false) ∧
    (∀ (fs : FS) (dest src : List String) (m : List (String × String)),
      rewriteFile true fs dest src m = .ok (fs, [])) := by
  obtain ⟨hv, hp⟩ := run_coupled_vp { cfg with dry := true }
    { cfg with dry := false } rfl sched (initSt fs0 root) (initSt fs0 root) rfl rfl
  obtain ⟨hf, he⟩ := run_dry_frame { cfg with dry := true } rfl fs0 sched
    (initSt fs0 root) rfl (by simp [initSt])
  exact ⟨hv, hp, hf, he, fun fs dest src m => rewriteFile_dry fs dest src m⟩

theorem walkCopy_unreadable (force dry : Bool) (dest : List String) :
    ∀ (l : List (List String × FSFile)) (fs : FS),
    (walkCopy force dry dest l fs).1.unreadable = fs.unreadable := by
  intro l
  induction l with
  | nil => intro fs; rfl
  | cons hd t ih =>
    intro fs
    obtain ⟨q, f⟩ := hd
    by_cases hdry : dry
    · subst hdry
      simp only [walkCopy, if_pos rfl]
      exact ih fs
    · simp only [Bool.not_eq_true] at hdry
      subst hdry
      simp only [walkCopy, Bool.false_eq_true, if_neg (by simp : ¬False)]
      split
      · cases hcf : copyFileF fs (dest ++ [q.getLastD ""]) q f with
        | ok fs2 =>
          have h2 : fs2.unreadable = fs.unreadable := by
            rw [copyFileF] at hcf
            split at hcf
            · simp at hcf
            · split at hcf <;>
              · simp only [Except.ok.injEq] at hcf
                rw [← hcf]
                rfl
          show (walkCopy force false dest t fs2).1.unreadable = fs.unreadable
          rw [ih fs2, h2]
        | error e =>
          show (walkCopy force false dest t fs).1.unreadable = fs.unreadable
          exact ih fs
      · exact ih fs

theorem walkCopy_dirs (force dry : Bool) (dest : List String) :
    ∀ (l : List (List String × FSFile)) (fs : FS),
    (walkCopy force dry dest l fs).1.dirs = fs.dirs := by
  intro l
  induction l with
  | nil => intro fs; rfl
  | cons hd t ih =>
    intro fs
    obtain ⟨q, f⟩ := hd
    by_cases hdry : dry
    · subst hdry
      simp only [walkCopy, if_pos rfl]
      exact ih fs
    · simp only [Bool.not_eq_true] at hdry
      subst hdry
      simp only [walkCopy, Bool.false_eq_true, if_neg (by simp : ¬False)]
      split
      · cases hcf : copyFileF fs (dest ++ [q.getLastD ""]) q f with
        | ok fs2 =>
          have h2 : fs2.dirs = fs.dirs := by
            rw [copyFileF] at hcf
            split at hcf
            · simp at hcf
            · split at hcf <;>
              · simp only [Except.ok.injEq] at hcf
                rw [← hcf]
                rfl
          show (walkCopy force false dest t fs2).1.dirs = fs.dirs
          rw [ih fs2, h2]
        | error e =>
          show (walkCopy force false dest t fs).1.dirs = fs.dirs
          exact ih fs
      · exact ih fs

theorem walkCopy_preserves_other (force : Bool) (dest : List String) :
    ∀ (l : List (List String × FSFile)) (fs : FS) (kk : List String),
    (∀ x ∈ l, dest ++ [x.1.getLastD ""] ≠ kk) →
    lookupA (walkCopy force false dest l fs).1.files kk = lookupA fs.files kk := by
  intro l
  induction l with
  | nil => intro fs kk _; rfl
  | cons hd t ih =>
    intro fs kk hne
    obtain ⟨q, f⟩ := hd
    have hq : dest ++ [q.getLastD ""] ≠ kk := hne (q, f) (by simp)
    have ht : ∀ x ∈ t, dest ++ [x.1.getLastD ""] ≠ kk :=
      fun x hx => hne x (by simp [hx])
    simp only [walkCopy, Bool.false_eq_true, if_neg (by simp : ¬False)]
    split
    · cases hcf : copyFileF fs (dest ++ [q.getLastD ""]) q f with
      | ok fs2 =>
        have h2 : lookupA fs2.files kk = lookupA fs.files kk := by
          rw [copyFileF] at hcf
          split at hcf
          · simp at hcf
          · split at hcf <;>
            · simp only [Except.ok.injEq] at hcf
              rw [← hcf]
              exact lookupA_setA_ne _ _ _ _ (fun hh => hq hh.symm)
        show lookupA (walkCopy force false dest t fs2).1.files kk = lookupA fs.files kk
        rw [ih fs2 kk ht, h2]
      | error e =>
        show lookupA (walkCopy force false dest t fs).1.files kk = lookupA fs.files kk
        exact ih fs kk ht
    · exact ih fs kk ht


theorem append_singleton_cancel {dest : List String} {a b : String}
    (h : dest ++ [a] = dest ++ [b]) : a = b := by
  have := List.append_cancel_left h
  simpa using this

theorem walkCopy_copies (force : Bool) (dest : List String) :
    ∀ (l : List (List String × FSFile)) (fs : FS),
    (l.map (fun x => x.1.getLastD "")).Nodup →
    (∀ x ∈ l, force = true ∨ fsExists fs (dest ++ [x.1.getLastD ""]) = false) →
    ∀ q f, (q, f) ∈ l → q ∉ fs.unreadable →
    ∃ pm, lookupA (walkCopy force false dest l fs).1.files
        (dest ++ [q.getLastD ""]) = some ⟨f.content, pm⟩ ∧
      (lookupA fs.files (dest ++ [q.getLastD ""]) = none → pm = f.perm) := by
  intro l
  induction l with
  | nil => intro fs _ _ q f hmem; simp at hmem
  | cons hd t ih =>
    intro fs hnd hc q f hmem hunread
    obtain ⟨q0, f0⟩ := hd
    have hcond0 : (!fsExists fs (dest ++ [q0.getLastD ""]) || force) = true := by
      rcases hc (q0, f0) (by simp) with hf | he
      · rw [hf, Bool.or_true]
      · have he2 : fsExists fs (dest ++ [q0.getLastD ""]) = false := he
        rw [he2]
        rfl
    have hndt : (t.map (fun x => x.1.getLastD "")).Nodup := by
      simp only [List.map_cons, List.nodup_cons] at hnd
      exact hnd.2
    have hq0t : ∀ x ∈ t, x.1.getLastD "" ≠ q0.getLastD "" := by
      intro x hx heq
      simp only [List.map_cons, List.nodup_cons] at hnd
      exact hnd.1 (heq ▸ List.mem_map_of_mem (fun y => y.1.getLastD "") hx)
    simp only [walkCopy, Bool.false_eq_true, if_neg (by simp : ¬False), hcond0,
      if_pos rfl]
    simp only [List.mem_cons] at hmem
    rcases hmem with hmem | hmem
    · have hq : q = q0 := congrArg Prod.fst hmem
      have hf : f = f0 := congrArg Prod.snd hmem
      subst hq
      subst hf
      cases hcf : copyFileF fs (dest ++ [q.getLastD ""]) q f with
      | error e =>
        rw [copyFileF, if_neg hunread] at hcf
        cases hold : lookupA fs.files (dest ++ [q.getLastD ""]) with
        | some old => rw [hold] at hcf; simp at hcf
        | none => rw [hold] at hcf; simp at hcf
      | ok fs2 =>
        show ∃ pm, lookupA (walkCopy force false dest t fs2).1.files
            (dest ++ [q.getLastD ""]) = some ⟨f.content, pm⟩ ∧
          (lookupA fs.files (dest ++ [q.getLastD ""]) = none → pm = f.perm)
        have hpres : lookupA (walkCopy force false dest t fs2).1.files
            (dest ++ [q.getLastD ""]) = lookupA fs2.files (dest ++ [q.getLastD ""]) := by
          apply walkCopy_preserves_other
          intro x hx heq
          exact hq0t x hx (append_singleton_cancel heq)
        rw [copyFileF, if_neg hunread] at hcf
        cases hold : lookupA fs.files (dest ++ [q.getLastD ""]) with
        | some old =>
          rw [hold] at hcf
          simp only [Except.ok.injEq] at hcf
          refine ⟨old.perm, ?_, ?_⟩
          · rw [hpres, ← hcf]
            exact lookupA_setA_self _ _ _
          · intro hnone
            exact absurd hnone (by simp)
        | none =>
          rw [hold] at hcf
          simp only [Except.ok.injEq] at hcf
          refine ⟨f.perm, ?_, fun _ => rfl⟩
          rw [hpres, ← hcf]
          exact lookupA_setA_self _ _ _
    · cases hcf : copyFileF fs (dest ++ [q0.getLastD ""]) q0 f0 with
      | error e =>
        show ∃ pm, lookupA (walkCopy force false dest t fs).1.files
            (dest ++ [q.getLastD ""]) = some ⟨f.content, pm⟩ ∧
          (lookupA fs.files (dest ++ [q.getLastD ""]) = none → pm = f.perm)
        exact ih fs hndt (fun x hx => hc x (by simp [hx])) q f hmem hunread
      | ok fs2 =>
        show ∃ pm, lookupA (walkCopy force false dest t fs2).1.files
            (dest ++ [q.getLastD ""]) = some ⟨f.content, pm⟩ ∧
          (lookupA fs.files (dest ++ [q.getLastD ""]) = none → pm = f.perm)
        have hfs2 : fs2 = fsWrite fs (dest ++ [q0.getLastD ""])
            ⟨f0.content, ((lookupA fs.files (dest ++ [q0.getLastD ""])).map
              FSFile.perm).getD f0.perm⟩ := by
          rw [copyFileF] at hcf
          split at hcf
          · simp at hcf
          · cases hold : lookupA fs.files (dest ++ [q0.getLastD ""]) with
            | some old => rw [hold] at hcf; simp at hcf; simp [hold, ← hcf]
            | none => rw [hold] at hcf; simp at hcf; simp [hold, ← hcf]
        have hqmem : (q, f) ∈ t := hmem
        have hne0 : dest ++ [q.getLastD ""] ≠ dest ++ [q0.getLastD ""] := by
          intro heq
          exact hq0t (q, f) hqmem (append_singleton_cancel heq)
        have hlk2 : lookupA fs2.files (dest ++ [q.getLastD ""]) =
            lookupA fs.files (dest ++ [q.getLastD ""]) := by
          rw [hfs2]
          exact lookupA_setA_ne _ _ _ _ hne0
        have hun2 : q ∉ fs2.unreadable := by
          rw [hfs2]
          exact hunread
        have hc2 : ∀ x ∈ t, force = true ∨
            fsExists fs2 (dest ++ [x.1.getLastD ""]) = false := by
          intro x hx
          rcases hc x (by simp [hx]) with hfo | hex
          · exact Or.inl hfo
          · refine Or.inr ?_
            rw [hfs2, fsExists_fsWrite_ne]
            · exact hex
            · intro heq
              exact hq0t x hx (append_singleton_cancel heq)
        obtain ⟨pm, hpm1, hpm2⟩ := ih fs2 hndt hc2 q f hqmem hun2
        exact ⟨pm, hpm1, fun hnone => hpm2 (by rw [hlk2]; exact hnone)⟩

theorem walkCopy_new_keys (force : Bool) (dest : List String) :
    ∀ (l : List (List String × FSFile)) (fs : FS) (kk : List String),
    lookupA (walkCopy force false dest l fs).1.files kk ≠ lookupA fs.files kk →
    ∃ x ∈ l, kk = dest ++ [x.1.getLastD ""] := by
  intro l
  induction l with
  | nil => intro fs kk h; exact absurd rfl h
  | cons hd t ih =>
    intro fs kk h
    obtain ⟨q0, f0⟩ := hd
    by_cases hkk : kk = dest ++ [q0.getLastD ""]
    · exact ⟨(q0, f0), by simp, hkk⟩
    simp only [walkCopy, Bool.false_eq_true, if_neg (by simp : ¬False)] at h
    split at h
    · cases hcf : copyFileF fs (dest ++ [q0.getLastD ""]) q0 f0 with
      | ok fs2 =>
        simp only [hcf] at h
        have hlk2 : lookupA fs2.files kk = lookupA fs.files kk := by
          rw [copyFileF] at hcf
          split at hcf
          · simp at hcf
          · split at hcf <;>
            · simp only [Except.ok.injEq] at hcf
              rw [← hcf]
              exact lookupA_setA_ne _ _ _ _ hkk
        have h2 : lookupA (walkCopy force false dest t fs2).1.files kk ≠
            lookupA fs2.files kk := by
          rw [hlk2]
          exact h
        obtain ⟨x, hx, hxe⟩ := ih fs2 kk h2
        exact ⟨x, by simp [hx], hxe⟩
      | error e =>
        simp only [hcf] at h
        obtain ⟨x, hx, hxe⟩ := ih fs kk h
        exact ⟨x, by simp [hx], hxe⟩
    · obtain ⟨x, hx, hxe⟩ := ih fs kk h
      exact ⟨x, by simp [hx], hxe⟩

theorem walkCopy_unreadable_skip (force : Bool) (dest : List String) :
    ∀ (l : List (List String × FSFile)) (fs : FS),
    (l.map (fun x => x.1.getLastD "")).Nodup →
    ∀ q0 f0, (q0, f0) ∈ l → q0 ∈ fs.unreadable →
    lookupA (walkCopy force false dest l fs).1.files (dest ++ [q0.getLastD ""]) =
      lookupA fs.files (dest ++ [q0.getLastD ""]) := by
  intro l
  induction l with
  | nil => intro fs _ q0 f0 hmem; simp at hmem
  | cons hd t ih =>
    intro fs hnd q0 f0 hmem hunr
    obtain ⟨q1, f1⟩ := hd
    have hndt : (t.map (fun x => x.1.getLastD "")).Nodup := by
      simp only [List.map_cons, List.nodup_cons] at hnd
      exact hnd.2
    have hq1t : ∀ x ∈ t, x.1.getLastD "" ≠ q1.getLastD "" := by
      intro x hx heq
      simp only [List.map_cons, List.nodup_cons] at hnd
      exact hnd.1 (heq ▸ List.mem_map_of_mem (fun y => y.1.getLastD "") hx)
    simp only [walkCopy, Bool.false_eq_true, if_neg (by simp : ¬False)]
    simp only [List.mem_cons] at hmem
    rcases hmem with hmem | hmem
    · have hq : q0 = q1 := congrArg Prod.fst hmem
      subst hq
      split
      · have hcf : copyFileF fs (dest ++ [q0.getLastD ""]) q0 f1 =
            .error "open failed" := by
          rw [copyFileF, if_pos hunr]
        rw [hcf]
        apply walkCopy_preserves_other
        intro x hx heq
        exact hq1t x hx (append_singleton_cancel heq)
      · apply walkCopy_preserves_other
        intro x hx heq
        exact hq1t x hx (append_singleton_cancel heq)
    · have hne : dest ++ [q0.getLastD ""] ≠ dest ++ [q1.getLastD ""] := by
        intro heq
        exact hq1t (q0, f0) hmem (append_singleton_cancel heq)
      split
      · cases hcf : copyFileF fs (dest ++ [q1.getLastD ""]) q1 f1 with
        | ok fs2 =>
          have hlk2 : lookupA fs2.files (dest ++ [q0.getLastD ""]) =
              lookupA fs.files (dest ++ [q0.getLastD ""]) := by
            rw [copyFileF] at hcf
            split at hcf
            · simp at hcf
            · split at hcf <;>
              · simp only [Except.ok.injEq] at hcf
                rw [← hcf]
                exact lookupA_setA_ne _ _ _ _ hne
          have hun2 : q0 ∈ fs2.unreadable := by
            rw [copyFileF] at hcf
            split at hcf
            · simp at hcf
            · split at hcf <;>
              · simp only [Except.ok.injEq] at hcf
                rw [← hcf]
                exact hunr
          show lookupA (walkCopy force false dest t fs2).1.files
              (dest ++ [q0.getLastD ""]) = lookupA fs.files (dest ++ [q0.getLastD ""])
          rw [ih fs2 hndt q0 f0 hmem hun2, hlk2]
        | error e =>
          show lookupA (walkCopy force false dest t fs).1.files
              (dest ++ [q0.getLastD ""]) = lookupA fs.files (dest ++ [q0.getLastD ""])
          exact ih fs hndt q0 f0 hmem hunr
      · exact ih fs hndt q0 f0 hmem hunr

/-- The value a successful non-dry `copyDir` returns: the walk result
over the files directly inside the source directory, on the filesystem
extended with the created destination directories. -/
def copyDirRes (force : Bool) (fs : FS) (dest src : List String) : FS × List Ev :=
  ((walkCopy force false dest
      (fs.files.filter (fun qf => decide (qf.1.dropLast = src)))
      { fs with dirs := prefixesOf dest ++ fs.dirs }).1,
    Ev.mkdir dest ::
      (walkCopy force false dest
        (fs.files.filter (fun qf => decide (qf.1.dropLast = src)))
        { fs with dirs := prefixesOf dest ++ fs.dirs }).2)

theorem copyDir_eq_ok (force : Bool) (fs : FS) (dest src : List String)
    (hmk : (prefixesOf dest).any (fun q2 => (lookupA fs.files q2).isSome) = false)
    (hsrc : src ∈ fs.dirs) :
    copyDir false force fs dest src = .ok (copyDirRes force fs dest src) := by
  have hsrc2 : src ∈ prefixesOf dest ++ fs.dirs := by
    simp [hsrc]
  simp [copyDir, mkdirAll, hmk, hsrc2, copyDirRes]

theorem eq_dropLast_append_getLastD (q : List String) (hq : q ≠ []) :
    q = q.dropLast ++ [q.getLastD ""] := by
  conv_lhs => rw [← List.dropLast_append_getLast hq]
  congr 1
  rw [List.getLastD_eq_getLast?, List.getLast?_eq_getLast q hq]
  rfl

theorem lasts_nodup_of_filter (files : List (List String × FSFile))
    (src : List String) (hnd : (files.map Prod.fst).Nodup) (hsrc : src ≠ []) :
    ((files.filter (fun qf => decide (qf.1.dropLast = src))).map
      (fun x => x.1.getLastD "")).Nodup := by
  have hkeys : ((files.filter (fun qf => decide (qf.1.dropLast = src))).map
      Prod.fst).Nodup :=
    List.Nodup.sublist (List.Sublist.map Prod.fst (List.filter_sublist files)) hnd
  have heq : ((files.filter (fun qf => decide (qf.1.dropLast = src))).map
        (fun x => x.1.getLastD "")) =
      ((files.filter (fun qf => decide (qf.1.dropLast = src))).map
        Prod.fst).map (fun q => q.getLastD "") := by
    rw [List.map_map]
    rfl
  rw [heq]
  apply List.Nodup.map_on ?_ hkeys
  intro q1 hq1 q2 hq2 hlast
  simp only [List.mem_map, List.mem_filter, decide_eq_true_eq] at hq1 hq2
  obtain ⟨x1, ⟨-, hd1⟩, he1⟩ := hq1
  obtain ⟨x2, ⟨-, hd2⟩, he2⟩ := hq2
  rw [he1] at hd1
  rw [he2] at hd2
  have hne1 : q1 ≠ [] := by
    intro hh
    rw [hh] at hd1
    exact hsrc (by simpa using hd1.symm)
  have hne2 : q2 ≠ [] := by
    intro hh
    rw [hh] at hd2
    exact hsrc (by simpa using hd2.symm)
  rw [eq_dropLast_append_getLastD q1 hne1, eq_dropLast_append_getLastD q2 hne2]
  rw [hd1, hd2, hlast]

theorem lookupA_append_of_none {α β : Type} [DecidableEq α]
    (l1 l2 : List (α × β)) (k : α) (h : lookupA l1 k = none) :
    lookupA (l1 ++ l2) k = lookupA l2 k := by
  induction l1 with
  | nil => rfl
  | cons hd t ih =>
    obtain ⟨k2, v2⟩ := hd
    by_cases hk : k2 = k
    · rw [lookupA, if_pos hk] at h
      simp at h
    · rw [lookupA, if_neg hk] at h
      rw [List.cons_append, lookupA, if_neg hk]
      exact ih h

theorem copyDirRes_copies (force : Bool) (fs : FS) (dest src : List String)
    (hnd : (fs.files.map Prod.fst).Nodup) (hsrcne : src ≠ [])
    (hc : ∀ x ∈ fs.files.filter (fun qf => decide (qf.1.dropLast = src)),
      force = true ∨ fsExists { fs with dirs := prefixesOf dest ++ fs.dirs }
        (dest ++ [x.1.getLastD ""]) = false) :
    ∀ q f, (q, f) ∈ fs.files → q.dropLast = src → q ∉ fs.unreadable →
    ∃ pm, lookupA (copyDirRes force fs dest src).1.files
        (dest ++ [q.getLastD ""]) = some ⟨f.content, pm⟩ ∧
      (lookupA fs.files (dest ++ [q.getLastD ""]) = none → pm = f.perm) := by
  intro q f hqf hdl hunr
  have hmem : (q, f) ∈ fs.files.filter (fun qf => decide (qf.1.dropLast = src)) := by
    simp [List.mem_filter, hqf, hdl]
  have hl := lasts_nodup_of_filter fs.files src hnd hsrcne
  obtain ⟨pm, h1, h2⟩ := walkCopy_copies force dest
    (fs.files.filter (fun qf => decide (qf.1.dropLast = src)))
    { fs with dirs := prefixesOf dest ++ fs.dirs } hl hc q f hmem hunr
  exact ⟨pm, h1, fun hnone => h2 hnone⟩

/-- C4: for a non-excluded unit, when force is off and the destination
directory already exists, the unit is skipped entirely: the filesystem
is untouched, the rewrites map gains no entry, and the skip is reported
as the task's error; when force is on, every readable file of the unit
is copied to the destination with its content overwritten
unconditionally, and the unit gains its rewrites entry. -/
theorem claim_C4_force_and_preexisting (cfg : Cfg) (fs : FS)
    (rw : List (String × String)) (vis : List String) (p : String) (pkg : Pkg)
    (hnv : p ∉ vis)
    (hlk : lookupA cfg.env p = some pkg)
    (hg : pkg.goroot = false)
    (hresolve : ∀ imp ∈ getAllImports pkg, imp = "C" ∨ (lookupA cfg.env imp).isSome)
    (hni : ignoredB rw cfg.blacklist p = false) :
    (cfg.force = false → fsExists fs (pkgDirOf cfg p) = true →
      (vendorizeStep cfg fs rw vis p).fs = fs ∧
      (vendorizeStep cfg fs rw vis p).rewrites = rw ∧
      (vendorizeStep cfg fs rw vis p).err = some ("Ignored preexisting " ++ p) ∧
      ∀ e ∈ (vendorizeStep cfg fs rw vis p).events, e.isWrite = false) ∧
    (cfg.force = true → cfg.dry = false → cfg.updateImports = false →
      (prefixesOf (pkgDirOf cfg p)).any
        (fun q2 => (lookupA fs.files q2).isSome) = false →
      pkg.dir ∈ fs.dirs → pkg.dir ≠ [] →
      (fs.files.map Prod.fst).Nodup →
      (vendorizeStep cfg fs rw vis p).err = none ∧
      lookupA (vendorizeStep cfg fs rw vis p).rewrites p = some (newPathOf cfg p) ∧
      ∀ q f, (q, f) ∈ fs.files → q.dropLast = pkg.dir → q ∉ fs.unreadable →
        ∃ pm, lookupA (vendorizeStep cfg fs rw vis p).fs.files
          (pkgDirOf cfg p ++ [q.getLastD ""]) = some ⟨f.content, pm⟩) := by
  have hres := resolveImports_of_all cfg.env (getAllImports pkg) hresolve
  constructor
  · intro hforce hex
    have hcond : (cfg.force || !fsExists fs (pkgDirOf cfg p)) = false := by
      rw [hforce, hex]
      rfl
    rw [vendorizeStep_eq_main cfg fs rw vis p pkg _ hnv hlk hg hres,
      materializePhase_eq_preexisting cfg fs rw pkg p hni hcond]
    refine ⟨rfl, rfl, rfl, ?_⟩
    intro e he
    simp at he
    simp [he, Ev.isWrite]
  · intro hforce hdry hupd hmk hsrcdir hdirne hnd
    have hcond : (cfg.force || !fsExists fs (pkgDirOf cfg p)) = true := by
      rw [hforce]
      rfl
    have hcd : copyDir cfg.dry cfg.force fs (pkgDirOf cfg p) pkg.dir =
        .ok (copyDirRes cfg.force fs (pkgDirOf cfg p) pkg.dir) := by
      rw [hdry]
      exact copyDir_eq_ok cfg.force fs (pkgDirOf cfg p) pkg.dir hmk hsrcdir
    rw [vendorizeStep_eq_main cfg fs rw vis p pkg _ hnv hlk hg hres,
      materializePhase_eq_copyok_noupd cfg fs rw pkg p
        (copyDirRes cfg.force fs (pkgDirOf cfg p) pkg.dir).1
        (copyDirRes cfg.force fs (pkgDirOf cfg p) pkg.dir).2 hni hcond hcd hupd]
    refine ⟨rfl, ?_, ?_⟩
    · have hrwnone : lookupA rw p = none := by
        rw [ignoredB, Bool.or_eq_false_iff] at hni
        have h1 := hni.1
        cases hl : lookupA rw p with
        | none => rfl
        | some v => rw [hl] at h1; simp at h1
      rw [lookupA_append_of_none rw _ p hrwnone]
      rw [lookupA, if_pos rfl]
    · intro q f hqf hdl hunr
      have hc : ∀ x ∈ fs.files.filter (fun qf => decide (qf.1.dropLast = pkg.dir)),
          cfg.force = true ∨ fsExists { fs with
            dirs := prefixesOf (pkgDirOf cfg p) ++ fs.dirs }
            (pkgDirOf cfg p ++ [x.1.getLastD ""]) = false :=
        fun x _ => Or.inl hforce
      obtain ⟨pm, h1, -⟩ := copyDirRes_copies cfg.force fs (pkgDirOf cfg p)
        pkg.dir hnd hdirne hc q f hqf hdl hunr
      exact ⟨pm, h1⟩

def envW4 : List (String × Pkg) := [("a", mkPkg "a" ["sa"] [] [])]

def fsW4a : FS :=
  { dirs := [["sa"], ["g", "src", "dst", "a"]], files := [], unreadable := [] }

def cfgW4a : Cfg := mkCfg envW4 ["g"] [] "root0" "dst" false false false

def fsW4b : FS :=
  { dirs := [["sa"]],
    files := [(["sa", "x.go"], ⟨FileContent.goSrc [] 7, 420⟩)],
    unreadable := [] }

def cfgW4b : Cfg := mkCfg envW4 ["g"] [] "root0" "dst" true false false

theorem claim_C4_witness :
    ((vendorizeStep cfgW4a fsW4a [] [] "a").fs = fsW4a ∧
      (vendorizeStep cfgW4a fsW4a [] [] "a").rewrites = [] ∧
      (vendorizeStep cfgW4a fsW4a [] [] "a").err =
        some ("Ignored preexisting " ++ "a")) ∧
    ((vendorizeStep cfgW4b fsW4b [] [] "a").err = none ∧
      lookupA (vendorizeStep cfgW4b fsW4b [] [] "a").rewrites "a" =
        some (newPathOf cfgW4b "a") ∧
      (lookupA (vendorizeStep cfgW4b fsW4b [] [] "a").fs.files
        (pkgDirOf cfgW4b "a" ++ ["x.go"])).map FSFile.content =
          some (FileContent.goSrc [] 7)) := by
  constructor
  · obtain ⟨ha, -⟩ := claim_C4_force_and_preexisting cfgW4a fsW4a [] [] "a"
      (mkPkg "a" ["sa"] [] []) (by decide) (by decide) (by decide)
      (by decide) (by decide)
    obtain ⟨w1, w2, w3, -⟩ := ha rfl (by decide)
    exact ⟨w1, w2, w3⟩
  · obtain ⟨-, hb⟩ := claim_C4_force_and_preexisting cfgW4b fsW4b [] [] "a"
      (mkPkg "a" ["sa"] [] []) (by decide) (by decide) (by decide)
      (by decide) (by decide)
    obtain ⟨w1, w2, w3⟩ := hb rfl rfl rfl (by decide) (by decide) (by decide)
      (by decide)
    refine ⟨w1, w2, ?_⟩
    obtain ⟨pm, h1⟩ := w3 ["sa", "x.go"] ⟨FileContent.goSrc [] 7, 420⟩
      (by decide) (by decide) (by decide)
    rw [show pkgDirOf cfgW4b "a" ++ ["x.go"] =
      pkgDirOf cfgW4b "a" ++ [(["sa", "x.go"] : List String).getLastD ""] from rfl]
    rw [h1]
    rfl

/-- Counterexample fixture for the tree-copy claim: the source
directory has one file at top level and one inside a subdirectory. -/
def fsW8 : FS :=
  { dirs := [["s"], ["s", "sub"]],
    files := [(["s", "a.go"], ⟨FileContent.raw 1, 420⟩),
      (["s", "sub", "b.go"], ⟨FileContent.raw 2, 420⟩)],
    unreadable := [] }

theorem claim_C8_counterexample :
    (copyDir false false fsW8 ["d"] ["s"]).toOption.isSome = true ∧
    ((copyDir false false fsW8 ["d"] ["s"]).toOption.map
      (fun pr => lookupA pr.1.files ["d", "a.go"])) =
        some (some ⟨FileContent.raw 1, 420⟩) ∧
    ((copyDir false false fsW8 ["d"] ["s"]).toOption.map
      (fun pr => lookupA pr.1.files ["d", "sub", "b.go"])) = some none ∧
    ((copyDir false false fsW8 ["d"] ["s"]).toOption.map
      (fun pr => lookupA pr.1.files ["d", "sub"])) = some none := by
  decide

/-- C8 (amended): a successful non-dry tree copy copies exactly the
regular files directly inside the source directory — every readable
top-level file lands at the destination with its content and (for a
fresh destination) its permission bits, every path the copy writes sits
directly in the destination directory (nothing deeper in the subtree is
created), and the copy fails when a file blocks creation of the
destination directory. -/
theorem claim_C8_one_level_copy (force : Bool) (fs : FS) (dest src : List String)
    (hmk : (prefixesOf dest).any (fun q2 => (lookupA fs.files q2).isSome) = false)
    (hsrc : src ∈ fs.dirs) (hsrcne : src ≠ [])
    (hnd : (fs.files.map Prod.fst).Nodup)
    (hfresh : ∀ x ∈ fs.files.filter (fun qf => decide (qf.1.dropLast = src)),
      fsExists { fs with dirs := prefixesOf dest ++ fs.dirs }
        (dest ++ [x.1.getLastD ""]) = false) :
    copyDir false force fs dest src = .ok (copyDirRes force fs dest src) ∧
    (∀ q f, (q, f) ∈ fs.files → q.dropLast = src → q ∉ fs.unreadable →
      lookupA (copyDirRes force fs dest src).1.files (dest ++ [q.getLastD ""]) =
        some ⟨f.content, f.perm⟩) ∧
    (∀ kk, lookupA (copyDirRes force fs dest src).1.files kk ≠
      lookupA fs.files kk → kk.dropLast = dest) ∧
    (∀ (fs2 : FS) (dest2 src2 : List String),
      (lookupA fs2.files dest2).isSome = true → dest2 ≠ [] →
      copyDir false force fs2 dest2 src2 =
        .error "Couldnt make destination directory") := by
  refine ⟨copyDir_eq_ok force fs dest src hmk hsrc, ?_, ?_, ?_⟩
  · intro q f hqf hdl hunr
    have hc : ∀ x ∈ fs.files.filter (fun qf => decide (qf.1.dropLast = src)),
        force = true ∨ fsExists { fs with dirs := prefixesOf dest ++ fs.dirs }
          (dest ++ [x.1.getLastD ""]) = false :=
      fun x hx => Or.inr (hfresh x hx)
    obtain ⟨pm, h1, h2⟩ := copyDirRes_copies force fs dest src hnd hsrcne hc
      q f hqf hdl hunr
    have hmemf : (q, f) ∈ fs.files.filter
        (fun qf => decide (qf.1.dropLast = src)) := by
      simp [List.mem_filter, hqf, hdl]
    have hnone : lookupA fs.files (dest ++ [q.getLastD ""]) = none := by
      have hex := hfresh (q, f) hmemf
      rw [fsExists, Bool.or_eq_false_iff] at hex
      cases hl : lookupA fs.files (dest ++ [q.getLastD ""]) with
      | none => rfl
      | some v =>
        have := hex.2
        rw [show ({ fs with dirs := prefixesOf dest ++ fs.dirs } : FS).files =
          fs.files from rfl, hl] at this
        simp at this
    rw [h1, h2 hnone]
  · intro kk hne
    obtain ⟨x, -, hxe⟩ := walkCopy_new_keys force dest
      (fs.files.filter (fun qf => decide (qf.1.dropLast = src)))
      { fs with dirs := prefixesOf dest ++ fs.dirs } kk hne
    rw [hxe]
    exact List.dropLast_concat
  · intro fs2 dest2 src2 hblock hne2
    have hdmem : dest2 ∈ prefixesOf dest2 := by
      rw [prefixesOf]
      refine List.mem_map.mpr ⟨dest2.length - 1, ?_, ?_⟩
      · refine List.mem_range.mpr ?_
        have : 0 < dest2.length := List.length_pos.mpr hne2
        omega
      · have : dest2.length - 1 + 1 = dest2.length := by
          have : 0 < dest2.length := List.length_pos.mpr hne2
          omega
        rw [this, List.take_length]
    have hany : (prefixesOf dest2).any
        (fun q2 => (lookupA fs2.files q2).isSome) = true :=
      List.any_eq_true.mpr ⟨dest2, hdmem, hblock⟩
    simp [copyDir, mkdirAll, hany]

/-- C10: when copying one file of a unit fails (here: the source file
cannot be opened), the error is discarded by the walk — the tree copy
still succeeds, the task reports no error, the unit still gets its
rewrites entry, and the failed file is simply missing from the
destination. -/
theorem claim_C10_copy_error_discarded (cfg : Cfg) (fs : FS)
    (rw : List (String × String)) (vis : List String) (p : String) (pkg : Pkg)
    (q0 : List String) (f0 : FSFile)
    (hnv : p ∉ vis)
    (hlk : lookupA cfg.env p = some pkg)
    (hg : pkg.goroot = false)
    (hresolve : ∀ imp ∈ getAllImports pkg, imp = "C" ∨ (lookupA cfg.env imp).isSome)
    (hni : ignoredB rw cfg.blacklist p = false)
    (hdry : cfg.dry = false) (hupd : cfg.updateImports = false)
    (hex : fsExists fs (pkgDirOf cfg p) = false)
    (hmk : (prefixesOf (pkgDirOf cfg p)).any
      (fun q2 => (lookupA fs.files q2).isSome) = false)
    (hsrcdir : pkg.dir ∈ fs.dirs) (hdirne : pkg.dir ≠ [])
    (hnd : (fs.files.map Prod.fst).Nodup)
    (hq0 : (q0, f0) ∈ fs.files) (hq0d : q0.dropLast = pkg.dir)
    (hunr : q0 ∈ fs.unreadable)
    (hfresh0 : lookupA fs.files (pkgDirOf cfg p ++ [q0.getLastD ""]) = none) :
    (vendorizeStep cfg fs rw vis p).err = none ∧
    lookupA (vendorizeStep cfg fs rw vis p).rewrites p = some (newPathOf cfg p) ∧
    lookupA (vendorizeStep cfg fs rw vis p).fs.files
      (pkgDirOf cfg p ++ [q0.getLastD ""]) = none := by
  have hres := resolveImports_of_all cfg.env (getAllImports pkg) hresolve
  have hcond : (cfg.force || !fsExists fs (pkgDirOf cfg p)) = true := by
    rw [hex]
    simp
  have hcd : copyDir cfg.dry cfg.force fs (pkgDirOf cfg p) pkg.dir =
      .ok (copyDirRes cfg.force fs (pkgDirOf cfg p) pkg.dir) := by
    rw [hdry]
    exact copyDir_eq_ok cfg.force fs (pkgDirOf cfg p) pkg.dir hmk hsrcdir
  rw [vendorizeStep_eq_main cfg fs rw vis p pkg _ hnv hlk hg hres,
    materializePhase_eq_copyok_noupd cfg fs rw pkg p
      (copyDirRes cfg.force fs (pkgDirOf cfg p) pkg.dir).1
      (copyDirRes cfg.force fs (pkgDirOf cfg p) pkg.dir).2 hni hcond hcd hupd]
  refine ⟨rfl, ?_, ?_⟩
  · have hrwnone : lookupA rw p = none := by
      rw [ignoredB, Bool.or_eq_false_iff] at hni
      have h1 := hni.1
      cases hl : lookupA rw p with
      | none => rfl
      | some v => rw [hl] at h1; simp at h1
    rw [lookupA_append_of_none rw _ p hrwnone]
    rw [lookupA, if_pos rfl]
  · have hmemf : (q0, f0) ∈ fs.files.filter
        (fun qf => decide (qf.1.dropLast = pkg.dir)) := by
      simp [List.mem_filter, hq0, hq0d]
    have hl := lasts_nodup_of_filter fs.files pkg.dir hnd hdirne
    have hskip := walkCopy_unreadable_skip cfg.force (pkgDirOf cfg p)
      (fs.files.filter (fun qf => decide (qf.1.dropLast = pkg.dir)))
      { fs with dirs := prefixesOf (pkgDirOf cfg p) ++ fs.dirs } hl q0 f0 hmemf hunr
    show lookupA (copyDirRes cfg.force fs (pkgDirOf cfg p) pkg.dir).1.files
      (pkgDirOf cfg p ++ [q0.getLastD ""]) = none
    rw [copyDirRes]
    rw [hskip]
    exact hfresh0

/-- C6 (amended): rewriting parses the source file, replaces exactly
the import literals that are keys of the map (all other imports and the
rest of the content are preserved), leaves every other file unchanged,
and when no import matches, the content written equals the parsed
original — but the file is still rewritten in place through the
temporary-file rename rather than skipped. -/
theorem claim_C6_rewrite_content (fs : FS) (dest src : List String)
    (m : List (String × String)) (imps : List String) (rest pm : Nat)
    (hunr : src ∉ fs.unreadable)
    (hsrc : fsRead fs src = some ⟨FileContent.goSrc imps rest, pm⟩) :
    rewriteFile false fs dest src m =
      .ok (fsWrite fs dest ⟨FileContent.goSrc (imps.map (substImport m)) rest, 384⟩,
        [Ev.renamed dest]) ∧
    (∀ q ∈ imps, lookupA m q = none → substImport m q = q) ∧
    (∀ q v, lookupA m q = some v → substImport m q = v) ∧
    (∀ other, other ≠ dest →
      fsRead (fsWrite fs dest
        ⟨FileContent.goSrc (imps.map (substImport m)) rest, 384⟩) other =
        fsRead fs other) ∧
    ((∀ q ∈ imps, lookupA m q = none) →
      (fsRead (fsWrite fs dest
        ⟨FileContent.goSrc (imps.map (substImport m)) rest, 384⟩) dest).map
          FSFile.content = some (FileContent.goSrc imps rest)) := by
  refine ⟨?_, ?_, ?_, ?_, ?_⟩
  · rw [rewriteFile]
    simp only [if_neg (by simp : ¬False), if_neg hunr, hsrc]
    rfl
  · intro q _ hq
    rw [substImport, hq]
  · intro q v hq
    rw [substImport, hq]
  · intro other hne
    exact fsRead_fsWrite_ne fs dest other _ hne
  · intro hno
    have hmapid : imps.map (substImport m) = imps := by
      conv_rhs => rw [← List.map_id imps]
      apply List.map_congr_left
      intro a ha
      rw [substImport, hno a ha]
      rfl
    rw [hmapid, fsRead_fsWrite_self]
    rfl

/-- Counterexample fixture for the rewrite no-op claim: a parseable
source file whose single import matches nothing in the map. -/
def fsC6 : FS :=
  { dirs := [],
    files := [(["f"], ⟨FileContent.goSrc ["y"] 5, 420⟩),
      (["dd"], ⟨FileContent.goSrc ["y"] 5, 420⟩)],
    unreadable := [] }

theorem claim_C6_counterexample :
    (rewriteFile false fsC6 ["dd"] ["f"] [("x", "dst/x")]).toOption =
      some (fsWrite fsC6 ["dd"] ⟨FileContent.goSrc ["y"] 5, 384⟩,
        [Ev.renamed ["dd"]]) ∧
    (Ev.renamed ["dd"]).isWrite = true ∧
    lookupA fsC6.files ["dd"] = some ⟨FileContent.goSrc ["y"] 5, 420⟩ ∧
    lookupA (fsWrite fsC6 ["dd"] ⟨FileContent.goSrc ["y"] 5, 384⟩).files ["dd"] =
      some ⟨FileContent.goSrc ["y"] 5, 384⟩ := by
  decide

theorem claim_C6_witness :
    rewriteFile false fsC6 ["dd"] ["f"] [("y", "dst/y")] =
      .ok (fsWrite fsC6 ["dd"]
        ⟨FileContent.goSrc (["y"].map (substImport [("y", "dst/y")])) 5, 384⟩,
        [Ev.renamed ["dd"]]) ∧
    substImport [("y", "dst/y")] "y" = "dst/y" ∧
    fsRead (fsWrite fsC6 ["dd"]
      ⟨FileContent.goSrc (["y"].map (substImport [("y", "dst/y")])) 5, 384⟩) ["f"] =
      fsRead fsC6 ["f"] := by
  obtain ⟨w1, -, w3, w4, -⟩ := claim_C6_rewrite_content fsC6 ["dd"] ["f"]
    [("y", "dst/y")] ["y"] 5 420 (by decide) (by decide)
  exact ⟨w1, w3 "y" "dst/y" (by decide), w4 ["f"] (by decide)⟩

/-- C7 (amended): rewriting a file writes atomically — on success the
destination is replaced wholesale by a single rename of the freshly
written temporary file; on a parse error the operation reports the
error with the target file left untouched; but within one unit the
first failing file aborts the remaining files of that unit, while the
scheduler keeps processing other pending tasks regardless of recorded
errors. -/
theorem claim_C7_atomic_and_abort (fs : FS) (src : List String)
    (m : List (String × String)) (d pm : Nat)
    (hunr : src ∉ fs.unreadable)
    (hbad : fsRead fs src = some ⟨FileContent.raw d, pm⟩) :
    (∀ dest0 : List String,
      rewriteFile false fs dest0 src m = .error "parse error") ∧
    (∀ (dest2 src2 : List String) (imps : List String) (rest2 pm2 : Nat),
      src2 ∉ fs.unreadable →
      fsRead fs src2 = some ⟨FileContent.goSrc imps rest2, pm2⟩ →
      rewriteFile false fs dest2 src2 m =
        .ok (fsWrite fs dest2
          ⟨FileContent.goSrc (imps.map (substImport m)) rest2, 384⟩,
          [Ev.renamed dest2])) ∧
    (∀ (pkgDir srcDir : List String) (n : String) (names : List String),
      m.length > 0 → src = srcDir ++ [n] →
      rewriteFiles false m pkgDir srcDir (n :: names) fs =
        ⟨fs, some "parse error", []⟩) ∧
    (∀ (cfg : Cfg) (k : Nat) (st : St) (errs : List String),
      (runStep cfg k { st with errors := errs }).visited =
        (runStep cfg k st).visited ∧
      (runStep cfg k { st with errors := errs }).pending =
        (runStep cfg k st).pending) := by
  have herr : ∀ dest0 : List String,
      rewriteFile false fs dest0 src m = .error "parse error" := by
    intro dest0
    rw [rewriteFile]
    simp only [if_neg (by simp : ¬False), if_neg hunr, hbad]
    rfl
  refine ⟨herr, ?_, ?_, ?_⟩
  · intro dest2 src2 imps rest2 pm2 hunr2 hgood
    rw [rewriteFile]
    simp only [if_neg (by simp : ¬False), if_neg hunr2, hgood]
    rfl
  · intro pkgDir srcDir n names hm hsplit
    rw [rewriteFiles, if_pos hm, ← hsplit, herr (pkgDir ++ [n])]
  · intro cfg k st errs
    by_cases hp : st.pending = []
    · rw [runStep_empty cfg k { st with errors := errs } hp,
        runStep_empty cfg k st hp]
      exact ⟨rfl, rfl⟩
    · rw [runStep_eq cfg k { st with errors := errs } hp,
        runStep_eq cfg k st hp]
      exact ⟨rfl, rfl⟩

/-- Fixture for the rewrite-abort scenario: a blacklisted unit with an
unparseable first source file and a parseable second one. -/
def envC7 : List (String × Pkg) :=
  [("a", { importPath := "a", dir := ["sa"], goroot := false, imports := [],
           testImports := [], xtestImports := [], goFiles := ["bad.go", "good.go"],
           cgoFiles := [], testGoFiles := [], xtestGoFiles := [] })]

/-- Filesystem for the rewrite-abort scenario. -/
def fsC7 : FS :=
  { dirs := [["sa"]],
    files := [(["sa", "bad.go"], ⟨FileContent.raw 0, 420⟩),
      (["sa", "good.go"], ⟨FileContent.goSrc ["x"] 9, 420⟩)],
    unreadable := [] }

/-- Configuration for the rewrite-abort scenario: the unit is the root
(hence excluded from copying, rewritten in place) and update-imports is
on. -/
def cfgC7 : Cfg := mkCfg envC7 ["g"] [] "a" "dst" false true false

theorem claim_C7_counterexample :
    (vendorizeStep cfgC7 fsC7 [("x", "dst/x")] [] "a").err = some "parse error" ∧
    lookupA (vendorizeStep cfgC7 fsC7 [("x", "dst/x")] [] "a").fs.files
      ["sa", "good.go"] = some ⟨FileContent.goSrc ["x"] 9, 420⟩ ∧
    (vendorizeStep cfgC7 fsC7 [("x", "dst/x")] [] "a").events =
      [Ev.traversed "a"] := by
  decide

theorem claim_C7_witness :
    rewriteFile false fsC7 ["sa", "bad.go"] ["sa", "bad.go"] [("x", "dst/x")] =
      .error "parse error" ∧
    rewriteFile false fsC7 ["sa", "good.go"] ["sa", "good.go"] [("x", "dst/x")] =
      .ok (fsWrite fsC7 ["sa", "good.go"]
        ⟨FileContent.goSrc (["x"].map (substImport [("x", "dst/x")])) 9, 384⟩,
        [Ev.renamed ["sa", "good.go"]]) ∧
    rewriteFiles false [("x", "dst/x")] ["sa"] ["sa"] ["bad.go", "good.go"] fsC7 =
      ⟨fsC7, some "parse error", []⟩ ∧
    (runStep cfgC7 0 { initSt fsC7 "a" with errors := ["e"] }).visited =
      (runStep cfgC7 0 (initSt fsC7 "a")).visited := by
  obtain ⟨w1, w2, w3, w4⟩ := claim_C7_atomic_and_abort fsC7 ["sa", "bad.go"]
    [("x", "dst/x")] 0 420 (by decide) (by decide)
  refine ⟨w1 ["sa", "bad.go"], ?_, ?_, (w4 cfgC7 0 (initSt fsC7 "a") ["e"]).1⟩
  · exact w2 ["sa", "good.go"] ["sa", "good.go"] ["x"] 9 420 (by decide) (by decide)
  · exact w3 ["sa"] ["sa"] "bad.go" ["good.go"] (by decide) (by decide)

/-- Universe for the dry-run divergence: the root imports both `a` and
`a/b`, so the real run's `MkdirAll` for `dst/a/b` creates `dst/a` as a
parent directory before `a` itself is copied. -/
def envW5 : List (String × Pkg) :=
  [("r", mkPkg "r" ["sr"] ["a", "a/b"] []), ("a", mkPkg "a" ["sa"] [] []),
   ("a/b", mkPkg "a/b" ["sab"] [] [])]

/-- Filesystem for the dry-run divergence. -/
def fsW5 : FS := { dirs := [["sr"], ["sa"], ["sab"]], files := [], unreadable := [] }

/-- Configuration for the dry-run divergence. -/
def cfgW5 : Cfg := mkCfg envW5 ["g"] [] "r" "dst" false false false

/-- An unparseable file, for the dry-mode no-validation counterexample. -/
def fsBadW5 : FS :=
  { dirs := [], files := [(["f"], ⟨FileContent.raw 0, 420⟩)], unreadable := [] }

theorem claim_C5_counterexample :
    (rewriteFile true fsBadW5 ["dd"] ["f"] [("x", "dst/x")]).toOption =
      some (fsBadW5, []) ∧
    (rewriteFile false fsBadW5 ["dd"] ["f"] [("x", "dst/x")]).toOption = none ∧
    (run { cfgW5 with dry := true } [0, 1, 0] (initSt fsW5 "r")).rewrites ≠
      (run { cfgW5 with dry := false } [0, 1, 0] (initSt fsW5 "r")).rewrites := by
  decide

/-- Source tree for the one-level-copy witness. -/
def fsW8c : FS :=
  { dirs := [["s"]], files := [(["s", "a.go"], ⟨FileContent.raw 3, 384⟩)],
    unreadable := [] }

/-- A filesystem with a file blocking the destination directory. -/
def fsW8d : FS :=
  { dirs := [], files := [(["d2"], ⟨FileContent.raw 4, 420⟩)], unreadable := [] }

theorem claim_C8_witness :
    copyDir false false fsW8c ["d"] ["s"] = .ok (copyDirRes false fsW8c ["d"] ["s"]) ∧
    lookupA (copyDirRes false fsW8c ["d"] ["s"]).1.files
      (["d"] ++ [(["s", "a.go"] : List String).getLastD ""]) =
        some ⟨FileContent.raw 3, 384⟩ ∧
    (["d", "a.go"] : List String).dropLast = ["d"] ∧
    copyDir false false fsW8d ["d2"] ["s"] =
      .error "Couldnt make destination directory" := by
  obtain ⟨w1, w2, w3, w4⟩ := claim_C8_one_level_copy false fsW8c ["d"] ["s"]
    (by decide) (by decide) (by decide) (by decide) (by decide)
  refine ⟨w1, ?_, ?_, w4 fsW8d ["d2"] ["s"] (by decide) (by decide)⟩
  · exact w2 ["s", "a.go"] ⟨FileContent.raw 3, 384⟩ (by decide) (by decide) (by decide)
  · exact w3 ["d", "a.go"] (by decide)

/-- Universe for the discarded-copy-error witness. -/
def envW10 : List (String × Pkg) := [("a", mkPkg "a" ["sa"] [] [])]

/-- Filesystem for the discarded-copy-error witness: the unit's only
file is unreadable. -/
def fsW10 : FS :=
  { dirs := [["sa"]], files := [(["sa", "bad.go"], ⟨FileContent.raw 0, 420⟩)],
    unreadable := [["sa", "bad.go"]] }

/-- Configuration for the discarded-copy-error witness. -/
def cfgW10 : Cfg := mkCfg envW10 ["g"] [] "root0" "dst" false false false

theorem claim_C10_witness :
    (vendorizeStep cfgW10 fsW10 [] [] "a").err = none ∧
    lookupA (vendorizeStep cfgW10 fsW10 [] [] "a").rewrites "a" =
      some (newPathOf cfgW10 "a") ∧
    lookupA (vendorizeStep cfgW10 fsW10 [] [] "a").fs.files
      (pkgDirOf cfgW10 "a" ++ [(["sa", "bad.go"] : List String).getLastD ""]) =
        none := by
  exact claim_C10_copy_error_discarded cfgW10 fsW10 [] [] "a"
    (mkPkg "a" ["sa"] [] []) ["sa", "bad.go"] ⟨FileContent.raw 0, 420⟩
    (by decide) (by decide) (by decide) (by decide) (by decide) (by decide)
    (by decide) (by decide) (by decide) (by decide) (by decide) (by decide)
    (by decide) (by decide) (by decide) (by decide)
